import Mathlib

/-!
Verification of the two core engines of `compress-html.ts` (webpage-compressor):
the generated-identifier classifier (`isWordLike`, `isGeneratedIdentifier`) and
the content-aware structural deduplicator (`getElementSignature`,
`extractBadgeContent`, `deduplicateRepeatedStructures`).

Modelling conventions (shallow embedding of the TypeScript source):
* JS strings are modelled as Lean `String` (a list of unicode scalar values).
  The source only ever inspects ASCII characters; `String.toLowerCase` is
  modelled by per-character ASCII lowering, and JS `\s` / `trim()` by an
  explicit whitespace-character class.  This agrees with JS on all strings of
  BMP characters, which covers every class/id token and badge the program
  handles.
* JS regular expressions are translated into explicit character-list scanners,
  one definition per regex, each commented with the regex it implements.
* The cheerio DOM is modelled by the inductive `HNode` (element / text /
  comment).  `children()` is the element-filtered child list, `.text()` the
  concatenation of descendant text nodes (comments contribute nothing),
  `attr(n)` the first binding of `n` in the attribute list.
* The floating-point comparison `wordLikeCount / words.length < 0.3` is
  modelled by the exact rational comparison `10 * count < 3 * length`; the two
  agree for every list whose length is below 10^15.
-/

namespace WebCompress

/-! ## Character and string helpers -/

/-- Whitespace class used by JS `trim()` and `\s` (the characters relevant to
this program: ASCII whitespace plus NBSP, BOM and the line/paragraph
separators). -/
def jsWs (c : Char) : Bool :=
  c = ' ' || c = '\t' || c = '\n' || c = '\r' ||
  c = Char.ofNat 11 || c = Char.ofNat 12 || c = Char.ofNat 0xa0 ||
  c = Char.ofNat 0xfeff || c = Char.ofNat 0x2028 || c = Char.ofNat 0x2029

/-- JS `String.prototype.trim`. -/
def trimStr (s : String) : String :=
  String.mk (((s.data.dropWhile jsWs).reverse.dropWhile jsWs).reverse)

/-- Per-character ASCII lowering; models `String.prototype.toLowerCase` on the
ASCII identifiers this program classifies. -/
def asciiLower (s : String) : String :=
  String.mk (s.data.map Char.toLower)

/-- Split a character list at every character satisfying `p`, keeping empty
segments — the semantics of JS `str.split(regex)` for a single-character-class
regex. -/
def splitOnPred (p : Char → Bool) : List Char → List (List Char)
  | [] => [[]]
  | c :: rest =>
    if p c then [] :: splitOnPred p rest
    else
      match splitOnPred p rest with
      | [] => [[c]]
      | seg :: segs => (c :: seg) :: segs

/-- JS `str.split(/\s+/).filter(c => c.length > 0)`: the non-empty
whitespace-delimited tokens of `s`. -/
def wsTokens (s : String) : List String :=
  ((splitOnPred jsWs s.data).filter (fun seg => ¬ seg.isEmpty)).map String.mk

/-- First segment of `str.split(/\s+/)` (may be empty when the string starts
with whitespace), as used for the marker descriptor. -/
def firstWsSegment (s : String) : String :=
  String.mk (((splitOnPred jsWs s.data).headD []))

/-- JS `array.join(sep)`. -/
def joinSep (sep : String) : List String → String
  | [] => ""
  | [x] => x
  | x :: y :: rest => x ++ sep ++ joinSep sep (y :: rest)

/-- Does `l` start with `pre` (character lists)? -/
def listStarts : List Char → List Char → Bool
  | [], _ => true
  | _ :: _, [] => false
  | n :: ns, h :: hs => n == h && listStarts ns hs

/-- Substring containment on character lists, for JS `String.includes`. -/
def listHasSub (needle : List Char) : List Char → Bool
  | [] => needle.isEmpty
  | h :: t => listStarts needle (h :: t) || listHasSub needle t

/-- JS `a.includes(b)` on strings. -/
def strHasSub (hay needle : String) : Bool :=
  listHasSub needle.data hay.data

/-- Total order used by the default JS `Array.prototype.sort()` on strings
(lexicographic by code unit; identical to code-point order on BMP strings). -/
def strLe (a b : String) : Bool :=
  a == b || decide (a < b)

/-- Insertion into a `strLe`-sorted list. -/
def insertSorted (s : String) : List String → List String
  | [] => [s]
  | x :: xs => if strLe s x then s :: x :: xs else x :: insertSorted s xs

/-- Sorting a list of strings, modelling the default JS `Array.sort()` (for
strings any correct sort produces the same list). -/
def sortStr (l : List String) : List String :=
  l.foldr insertSorted []

/-- First-occurrence deduplication with an explicit seen-set; `firstOcc [] l`
models the element order of a JS `Set` built by insertion. -/
def firstOcc (seen : List String) : List String → List String
  | [] => []
  | k :: ks => if k ∈ seen then firstOcc seen ks else k :: firstOcc (seen ++ [k]) ks

/-! ## Word-likeness (`isWordLike`, compress-html.ts lines 68–83) -/

/-- Vowels of the regex `/[aeiouy]/i`. -/
def isVowel (c : Char) : Bool :=
  let d := c.toLower
  d = 'a' || d = 'e' || d = 'i' || d = 'o' || d = 'u' || d = 'y'

/-- Consonant class of the regex `/[bcdfghjklmnpqrstvwxz]{4,}/i` (every ASCII
letter except the vowels and `y`). -/
def isConsonant (c : Char) : Bool :=
  c.isAlpha && ¬ isVowel c

/-- Line terminators, which the unflagged JS `.` does not match. -/
def isLineTerm (c : Char) : Bool :=
  c = '\n' || c = '\r' || c = Char.ofNat 0x2028 || c = Char.ofNat 0x2029

/-- The regex `/(.)\1{2,}/`: some non-line-terminator character occurs three or
more times consecutively. -/
def hasTripleRepeat : List Char → Bool
  | a :: b :: c :: rest =>
    (a == b && b == c && ¬ isLineTerm a) || hasTripleRepeat (b :: c :: rest)
  | _ => false

/-- Variant of `hasTripleRepeat` with no character excluded: "no character
repeats 3+ times consecutively" read literally (any character). -/
def hasTripleRepeatAny : List Char → Bool
  | a :: b :: c :: rest => (a == b && b == c) || hasTripleRepeatAny (b :: c :: rest)
  | _ => false

/-- The regex `/[bcdfghjklmnpqrstvwxz]{4,}/i`: four or more consecutive
consonants. -/
def hasConsRun4 : List Char → Bool
  | a :: b :: c :: d :: rest =>
    (isConsonant a && isConsonant b && isConsonant c && isConsonant d) ||
    hasConsRun4 (b :: c :: d :: rest)
  | _ => false

/-- Count of characters matching `/\d/g`. -/
def digitCount (s : String) : Nat :=
  (s.data.filter Char.isDigit).length

/-- Count of characters matching `/[a-z]/gi`. -/
def letterCount (s : String) : Nat :=
  (s.data.filter Char.isAlpha).length

/-- The source's `isWordLike`: does a segment look like a human-authored
word? -/
def isWordLike (segment : String) : Bool :=
  if segment.data.length < 2 then false
  else if digitCount segment > letterCount segment then false
  else if ¬ segment.data.any isVowel then false
  else if hasTripleRepeat segment.data then false
  else if hasConsRun4 segment.data then false
  else true

/-! ## Generated-identifier classifier (`isGeneratedIdentifier`, lines 89–170) -/

/-- The fixed allow-list of semantic words that are never flagged. -/
def safeWords : List String :=
  ["content", "main", "root", "wrapper", "container", "button", "label",
   "title", "item", "active", "selected", "header", "footer", "nav", "menu",
   "card", "modal", "dialog", "input", "text", "icon", "avatar", "user",
   "profile", "search", "progress", "auth", "login", "signup"]

/-- ASCII alphanumeric (the class `[a-z0-9]` under the `/i` flag). -/
def isAlnum (c : Char) : Bool :=
  c.isAlpha || c.isDigit

/-- The framework-signature regexes (Pattern 1), all case-insensitive, each
checked against the lowercased name: `^css-[a-z0-9]+$`, `^sc-[a-z]+$`,
`^_?ng(content|host)-`, `^ember\d+$`, `^__next`, `^jsx-[a-z0-9]+$`,
`^svelte-[a-z0-9]+$`. -/
def frameworkMatch (name : String) : Bool :=
  let low := (asciiLower name).data
  let tailAll (pre : List Char) (p : Char → Bool) : Bool :=
    listStarts pre low && !(low.drop pre.length).isEmpty && (low.drop pre.length).all p
  tailAll "css-".data isAlnum ||
  tailAll "sc-".data Char.isAlpha ||
  listStarts "ngcontent-".data low || listStarts "nghost-".data low ||
  listStarts "_ngcontent-".data low || listStarts "_nghost-".data low ||
  tailAll "ember".data Char.isDigit ||
  listStarts "__next".data low ||
  tailAll "jsx-".data isAlnum ||
  tailAll "svelte-".data isAlnum

/-- The regex `name.match(/[-_]([a-z0-9]{6,})$/i)` (Pattern 2): the captured
suffix after the leftmost `-`/`_` that is followed only by six or more
alphanumerics running to the end of the string. -/
def hashSuffix : List Char → Option (List Char)
  | [] => none
  | c :: rest =>
    if (c == '-' || c == '_') && 6 ≤ rest.length && rest.all isAlnum then some rest
    else hashSuffix rest

/-- The regex `/^[a-z]+(_\d+){2,}$/i` (Pattern 3): letters followed by two or
more `_digits` groups, e.g. `d2l` fails, `abc_1_2` matches. -/
def underscoreNumbers (name : String) : Bool :=
  match splitOnPred (fun c => c == '_') name.data with
  | [] => false
  | w :: ws =>
    2 ≤ ws.length && ¬ w.isEmpty && w.all Char.isAlpha &&
    ws.all (fun g => ¬ g.isEmpty && g.all Char.isDigit)

/-- The regex `/^[a-z]?\d+$|^\d+[a-z]?$/i` (Pattern 4): just numbers, or a
single letter plus numbers in either order. -/
def letterDigits (l : List Char) : Bool :=
  let alt1 :=
    match l with
    | [] => false
    | c :: rest =>
      if c.isAlpha then ¬ rest.isEmpty && rest.all Char.isDigit
      else l.all Char.isDigit
  let ds := l.takeWhile Char.isDigit
  let rest := l.drop ds.length
  let alt2 := ¬ ds.isEmpty && (rest.isEmpty || (rest.length == 1 && rest.all Char.isAlpha))
  alt1 || alt2

/-- Window scan for `/[a-z]{2,}\d{3,}/i` (two letters immediately followed by
three digits occurs iff the full pattern occurs). -/
def hasLettersThenDigits : List Char → Bool
  | a :: b :: c :: d :: e :: rest =>
    (a.isAlpha && b.isAlpha && c.isDigit && d.isDigit && e.isDigit) ||
    hasLettersThenDigits (b :: c :: d :: e :: rest)
  | _ => false

/-- Hexadecimal character class `[0-9a-f]` under `/i`. -/
def isHexChar (c : Char) : Bool :=
  c.isDigit || ('a' ≤ c.toLower && c.toLower ≤ 'f')

/-- Window scan for `/[0-9a-f]{8,}/i`: eight consecutive hex characters. -/
def hasHexRun8 : List Char → Bool
  | a :: b :: c :: d :: e :: f :: g :: h :: rest =>
    (isHexChar a && isHexChar b && isHexChar c && isHexChar d &&
     isHexChar e && isHexChar f && isHexChar g && isHexChar h) ||
    hasHexRun8 (b :: c :: d :: e :: f :: g :: h :: rest)
  | _ => false

/-- Segments of `name.split(/[-_]/)` (empties kept, as JS `split` does). -/
def dashSegments (name : String) : List (List Char) :=
  splitOnPred (fun c => c == '-' || c == '_') name.data

/-- Words of Pattern 7: lowercase the name, replace `-`/`_` by spaces, split on
spaces, drop empties. -/
def entropyWords (name : String) : List String :=
  ((splitOnPred (fun c => c == '-' || c == '_' || c == ' ')
      (asciiLower name).data).filter (fun seg => ¬ seg.isEmpty)).map String.mk

/-- The source's `isGeneratedIdentifier`: does a class name or id look
auto-generated rather than human-authored?  Rules are evaluated in source
order; the first matching rule decides. -/
def isGeneratedIdentifier (name : String) : Bool :=
  if name.data.length = 0 then false
  else if safeWords.any (fun w => asciiLower name == w) then false
  else if frameworkMatch name then true
  else if (match hashSuffix name.data with
           | some suffix => !isWordLike (String.mk suffix)
           | none => false) then true
  else if underscoreNumbers name then true
  else if letterDigits name.data then true
  else if 6 < (dashSegments name).length then true
  else if hasLettersThenDigits name.data || hasHexRun8 name.data then true
  else
    let words := entropyWords name
    if 2 < words.length && 10 * (words.filter isWordLike).length < 3 * words.length
    then true else false

/-- The source's `filterClasses`: drop generated-looking class tokens.  A
missing `class` attribute (`classStr` = `none`) degrades to the empty
string. -/
def filterClasses (stripGenerated : Bool) (classStr : Option String) : String :=
  match classStr with
  | none => ""
  | some s =>
    if ¬ stripGenerated then s
    else joinSep " " ((wsTokens s).filter (fun c => ¬ isGeneratedIdentifier c))

/-! ## The document tree

Model of the cheerio/domhandler DOM restricted to what the two engines
observe: element nodes (tag, attribute list, child list), text nodes and
comment nodes.  `children()` in cheerio returns only the element children;
`.text()` concatenates the data of all descendant text nodes (comment nodes
contribute nothing). -/

inductive HNode where
  | elem (tag : String) (attrs : List (String × String)) (children : List HNode)
  | text (s : String)
  | comment (s : String)

/-- Is this node an element? -/
def isElem : HNode → Bool
  | .elem _ _ _ => true
  | _ => false

/-- Attribute lookup (`$el.attr(name)`); attribute names are unique per
element, the first binding wins. -/
def getAttr (attrs : List (String × String)) (name : String) : Option String :=
  (attrs.find? (fun p => p.1 == name)).map (fun p => p.2)

/-- Attribute lookup defaulted to the empty string (`$el.attr(name) || ""`). -/
def getAttrD (attrs : List (String × String)) (name : String) : String :=
  (getAttr attrs name).getD ""

/-- Attribute list of a node (non-elements have none). -/
def attrsOf : HNode → List (String × String)
  | .elem _ a _ => a
  | _ => []

/-- Tag of a node (non-elements yield the empty string, matching the source's
`el.tagName?.toLowerCase() || ""` degradation). -/
def tagOf : HNode → String
  | .elem t _ _ => t
  | _ => ""

/-- Child list of a node. -/
def childrenOf : HNode → List HNode
  | .elem _ _ cs => cs
  | _ => []

mutual
/-- Cheerio `.text()`: concatenated data of all descendant text nodes. -/
def nodeText : HNode → String
  | .text s => s
  | .comment _ => ""
  | .elem _ _ cs => nodeTextList cs
/-- Text of a node list, in order. -/
def nodeTextList : List HNode → String
  | [] => ""
  | c :: cs => nodeText c ++ nodeTextList cs
end

/-- Direct (own) text of an element, excluding descendant elements' text: the
source's `$item.clone().children().remove().end().text()`. -/
def directText (n : HNode) : String :=
  joinSep "" ((childrenOf n).map (fun c =>
    match c with
    | .text s => s
    | _ => ""))

mutual
/-- The element itself followed by all its descendant elements in document
order: the source's `[$el, ...$el.find("*")]`. -/
def selfDesc : HNode → List HNode
  | .elem t a cs => .elem t a cs :: descList cs
  | _ => []
/-- Descendant elements of a node list, in document order. -/
def descList : List HNode → List HNode
  | [] => []
  | c :: cs => selfDesc c ++ descList cs
end

/-! ## Structural signature (`getElementSignature`, lines 311–334) -/

/-- Sorted class tokens of an attribute list (split on whitespace, empties
dropped, sorted as JS `Array.sort()` does). -/
def sortedClasses (attrs : List (String × String)) : List String :=
  sortStr (wsTokens (getAttrD attrs "class"))

/-- Per-child component of the signature: tag plus the first 3 sorted
classes. -/
def childSigOf : HNode → String
  | .elem t a _ => asciiLower t ++ "[" ++ joinSep "," ((sortedClasses a).take 3) ++ "]"
  | _ => ""

/-- The source's `getElementSignature`: bounded structural fingerprint made of
the tag, the full sorted class list, and the first 5 element children each
reduced to tag plus first 3 sorted classes. -/
def getElementSignature : HNode → String
  | .elem t a cs =>
    asciiLower t ++ "[" ++ joinSep "," (sortedClasses a) ++ "](" ++
      joinSep ";" (((cs.filter isElem).take 5).map childSigOf) ++ ")"
  | _ => ""

/-- The data `childSigOf` depends on: lowered tag and first 3 sorted classes
(used to state the boundedness claim). -/
def childSummary (c : HNode) : String × List String :=
  (asciiLower (tagOf c), (sortedClasses (attrsOf c)).take 3)

/-! ## Badge extraction (`extractBadgeContent`, lines 259–306) -/

/-- Class substrings indicating badge/label/status elements. -/
def BADGE_INDICATORS : List String :=
  ["badge", "label", "tag", "chip", "status", "indicator", "pill", "flag",
   "ribbon", "overlay"]

/-- The source's `addIfMeaningful` condition: trimmed, non-empty, under 60
characters. -/
def meaningful (s : String) : Option String :=
  let t := trimStr s
  if 0 < t.data.length ∧ t.data.length < 60 then some t else none

/-- Does the node's class string contain a badge-indicator substring? -/
def isBadgeElement (n : HNode) : Bool :=
  BADGE_INDICATORS.any (fun ind => strHasSub (asciiLower (getAttrD (attrsOf n) "class")) ind)

/-- Is the node's tag in the fixed interactive set? -/
def isInteractiveTag (n : HNode) : Bool :=
  ["button", "a", "input", "select", "option"].any (fun t => asciiLower (tagOf n) == t)

/-- Badge candidates contributed by one node: its `aria-label`, `title` and
`placeholder` attribute values, plus its direct text when it is a badge-like
or interactive element. -/
def itemCandidates (n : HNode) : List String :=
  (["aria-label", "title", "placeholder"].filterMap
    (fun a => (getAttr (attrsOf n) a).bind meaningful)) ++
  (if isBadgeElement n || isInteractiveTag n then (meaningful (directText n)).toList else [])

/-- The source's `extractBadgeContent`: distinct meaningful strings from the
element and its descendants (a JS `Set`, modelled by first-occurrence
deduplication), falling back to the element's own short full text, finally
sorted. -/
def extractBadges (e : HNode) : List String :=
  let collected := firstOcc [] ((selfDesc e).flatMap itemCandidates)
  let withFallback :=
    if collected.isEmpty then
      (let t := trimStr (nodeText e)
       if t.data.length ≠ 0 ∧ t.data.length < 40 then [t] else [])
    else collected
  sortStr withFallback

/-- BadgeKey of an element: `badges.join(" | ") || "(none)"`. -/
def badgeKey (e : HNode) : String :=
  let j := joinSep " | " (extractBadges e)
  if j == "" then "(none)" else j

/-! ## Grouping maps

JS `Map` with insertion-ordered keys, modelled as an association list where
`groupPush` appends a value to its key's list (inserting the key at the end on
first occurrence), exactly as `map.get(k)!.push(v)` does. -/

/-- Push `v` onto key `k` of the insertion-ordered multimap `m`. -/
def groupPush (m : List (String × List α)) (k : String) (v : α) : List (String × List α) :=
  match m with
  | [] => [(k, [v])]
  | (k2, vs) :: rest =>
    if k2 == k then (k2, vs ++ [v]) :: rest else (k2, vs) :: groupPush rest k v

/-- Build the multimap of `l` keyed by `key`, preserving insertion order. -/
def groupByKey (key : α → String) (l : List α) : List (String × List α) :=
  l.foldl (fun m v => groupPush m (key v) v) []

/-- Lookup in an insertion-ordered map (`map.get(k)`). -/
def lookupKey (k : String) (m : List (String × β)) : Option β :=
  (m.find? (fun e => e.1 == k)).map (fun e => e.2)

/-- Key list of an insertion-ordered map. -/
def keysOf (m : List (String × β)) : List String :=
  m.map (fun e => e.1)

/-- Increment the count of `k` in an insertion-ordered counter map
(`map.set(k, (map.get(k) || 0) + 1)`). -/
def bump (m : List (String × Nat)) (k : String) : List (String × Nat) :=
  match m with
  | [] => [(k, 1)]
  | (k2, c) :: rest =>
    if k2 == k then (k2, c + 1) :: rest else (k2, c) :: bump rest k

/-! ## Deduplication engine (`deduplicateRepeatedStructures`, lines 340–420)

The source iterates `$("*")` — a snapshot of all elements taken before any
mutation — in document order and, per container, groups its element children
by signature, sub-groups qualifying partitions by badge key, inserts a
comment marker before the first member and removes every non-first member of
each badge sub-group.  Because the snapshot is in pre-order, a container's
children are still in their original state when it is visited (ancestors only
ever detach whole child subtrees or insert sibling markers, never mutate the
inside of a subtree), so each container's decision is a pure function of its
original child list; mutations of distinct containers and of disjoint groups
commute.  The engine is therefore modelled as the pure recursion `dedupNode`,
which computes each container's decisions from the original children and
rebuilds the child list. -/

/-- Children paired with their positions, starting at `i`. -/
def idxFrom (i : Nat) : List α → List (Nat × α)
  | [] => []
  | x :: xs => (i, x) :: idxFrom (i + 1) xs

/-- Element children of a child list with their node positions
(`$parent.children()`). -/
def elemsIdx (cs : List HNode) : List (Nat × HNode) :=
  (idxFrom 0 cs).filter (fun p => isElem p.2)

/-- The structural partition of a container's element children
(`structuralGroups`). -/
def structGroups (cs : List HNode) : List (String × List (Nat × HNode)) :=
  groupByKey (fun p => getElementSignature p.2) (elemsIdx cs)

/-- Badge sub-partition of one structural group (`elementsByBadges`). -/
def badgeGroups (g : List (Nat × HNode)) : List (String × List (Nat × HNode)) :=
  groupByKey (fun p => badgeKey p.2) g

/-- Positions retained from a group: the first element of each badge
sub-group (`keptElements`). -/
def keptIdx (g : List (Nat × HNode)) : List Nat :=
  (badgeGroups g).filterMap (fun bg => bg.2.head?.map (fun p => p.1))

/-- Positions removed from a group: members not in `keptIdx`. -/
def groupRemoved (g : List (Nat × HNode)) : List Nat :=
  (g.filter (fun p => p.1 ∉ keptIdx g)).map (fun p => p.1)

/-- The badge-occurrence counter of a group (`badgeSummary`): per member, its
badges each counted once, badge-less members counted under the sentinel. -/
def badgeSummary (g : List (Nat × HNode)) : List (String × Nat) :=
  g.foldl (fun m p =>
    let bs := extractBadges p.2
    if bs.isEmpty then bump m "(none)" else bs.foldl bump m) []

/-- The individual badge keys of a group in member order, badge-less members
contributing the sentinel — the sequence of `badgeSummary` increments. -/
def flatBadgeKeys (g : List (Nat × HNode)) : List String :=
  g.flatMap (fun p =>
    let bs := extractBadges p.2
    if bs.isEmpty then ["(none)"] else bs)

/-- Badge table of the marker: summary entries without the sentinel, in first
occurrence order. -/
def badgePairs (g : List (Nat × HNode)) : List (String × Nat) :=
  (badgeSummary g).filter (fun bc => bc.1 ≠ "(none)")

/-- The `badgeSummaryStr` of the marker. -/
def badgeSummaryStr (g : List (Nat × HNode)) : String :=
  joinSep ", " ((badgePairs g).map (fun bc =>
    "\"" ++ bc.1 ++ "\" (" ++ toString bc.2 ++ "x)"))

/-- Marker descriptor: leading dot plus first class token, else the lowered
tag name (`element` if empty). -/
def descriptorOf (first : HNode) : String :=
  let t := asciiLower (tagOf first)
  let tagName := if t == "" then "element" else t
  let mainClass := firstWsSegment (getAttrD (attrsOf first) "class")
  if mainClass == "" then tagName else "." ++ mainClass

/-- The marker nodes inserted before a group's first member: cheerio parses
the string `"\n<!-- REPEATED: Nx d -->" (+ "\n<!-- Badge variations: … -->")
+ "\n"` into alternating newline text nodes and comment nodes. -/
def markerNodes (g : List (Nat × HNode)) : List HNode :=
  match g with
  | [] => []
  | (_, first) :: _ =>
    [.text "\n",
     .comment (" REPEATED: " ++ (toString g.length ++ "x " ++ descriptorOf first ++ " ")),
     .text "\n"] ++
    (if badgeSummaryStr g == "" then []
     else [.comment (" Badge variations: " ++ (badgeSummaryStr g ++ " ")), .text "\n"])

/-- A comment node carrying the badge table? -/
def isBadgeVariation : HNode → Bool
  | .comment s => listStarts " Badge variations: ".data s.data
  | _ => false

/-- Qualifying structural groups of a container: none when the container has
fewer than `T` element children, else the groups of size at least `T`. -/
def qualGroups (T : Nat) (cs : List HNode) : List (String × List (Nat × HNode)) :=
  if (elemsIdx cs).length < T then []
  else (structGroups cs).filter (fun sg => T ≤ sg.2.length)

/-- Marker insertions of a container: one marker at the position of each
qualifying group's first member (the source returns early on an empty
group). -/
def containerMarkers (T : Nat) (cs : List HNode) : List (Nat × List HNode) :=
  (qualGroups T cs).filterMap (fun sg =>
    match sg.2 with
    | [] => none
    | (i, _) :: _ => some (i, markerNodes sg.2))

/-- Positions removed by a container's evaluation. -/
def containerRemoved (T : Nat) (cs : List HNode) : List Nat :=
  (qualGroups T cs).flatMap (fun sg =>
    match sg.2 with
    | [] => []
    | _ :: _ => groupRemoved sg.2)

/-- Rebuild a child list from positioned children: markers are inserted
immediately before their position, removed positions are dropped. -/
def assembleChildren (markers : List (Nat × List HNode)) (removed : List Nat) :
    List (Nat × HNode) → List HNode
  | [] => []
  | (i, c) :: rest =>
    ((markers.filter (fun m => m.1 == i)).flatMap (fun m => m.2)) ++
    (if i ∈ removed then [] else [c]) ++
    assembleChildren markers removed rest

mutual
/-- The deduplication engine as a pure recursion: result tree together with
the number of elements the traversal removes (see the section comment for why
this models the imperative `$("*")`.each` pass). -/
def dedupNode (T : Nat) : HNode → HNode × Nat
  | .text s => (.text s, 0)
  | .comment s => (.comment s, 0)
  | .elem tag attrs cs =>
    let recs := dedupList T cs
    (.elem tag attrs
      (assembleChildren (containerMarkers T cs) (containerRemoved T cs)
        (idxFrom 0 (recs.map Prod.fst))),
     (containerRemoved T cs).length + (recs.map Prod.snd).sum)
/-- Deduplication mapped over a child list. -/
def dedupList (T : Nat) : List HNode → List (HNode × Nat)
  | [] => []
  | c :: cs => dedupNode T c :: dedupList T cs
end

/-- The source's `deduplicateRepeatedStructures` entry point (with
`deduplicateRepeated` enabled and threshold `T` = `options.minRepeatCount`). -/
def deduplicateRepeatedStructures (T : Nat) (t : HNode) : HNode :=
  (dedupNode T t).1

/-- Number of element removals one run performs on the retained document. -/
def removalCount (T : Nat) (t : HNode) : Nat :=
  (dedupNode T t).2

/-- Removals performed by a second run on the first run's output. -/
def pass2Removals (T : Nat) (t : HNode) : Nat :=
  removalCount T (deduplicateRepeatedStructures T t)

/-! ## Traversal model (for the visit-order claims)

`$("*")` evaluates its selector eagerly: the traversal iterates a snapshot of
all elements of the original tree in document (pre-)order, and `.each` keeps
iterating that array even when an earlier iteration has detached a node from
the tree. -/

mutual
/-- Paths (child-index lists) of all elements of the tree in document order —
the snapshot `$("*")` iterates. -/
def visitOrder : HNode → List (List Nat)
  | .text _ => []
  | .comment _ => []
  | .elem _ _ cs => [] :: visitChildren 0 cs
/-- Visit paths contributed by a child list starting at position `i`. -/
def visitChildren : Nat → List HNode → List (List Nat)
  | _, [] => []
  | i, c :: cs => (visitOrder c).map (fun p => i :: p) ++ visitChildren (i + 1) cs
end

/-- Subtree of the original tree at a path. -/
def subtreeAt : HNode → List Nat → Option HNode
  | n, [] => some n
  | n, i :: p =>
    match n with
    | .elem _ _ cs =>
      (match cs.get? i with
       | some c => subtreeAt c p
       | none => none)
    | _ => none

/-- Paths removed while the traversal visits the container at path `p` (its
decisions are computed from the container's original children, see above). -/
def removedPathsAt (T : Nat) (t : HNode) (p : List Nat) : List (List Nat) :=
  match subtreeAt t p with
  | some (.elem _ _ cs) => (containerRemoved T cs).map (fun i => p ++ [i])
  | _ => []

/-! ## Spec-side definitions (stated from the specification's words, to be
compared with the engine's behaviour) -/

/-- Spec: "retained elements are exactly one per distinct BadgeKey …, chosen
as the first element (document order) holding that key": the members of `g`
that are the first holder of their badge key (members are identified by their
document position). -/
def specKept (g : List (Nat × HNode)) : List (Nat × HNode) :=
  g.filter (fun p =>
    ((g.find? (fun q => badgeKey q.2 == badgeKey p.2)).map (fun q => q.1)) == some p.1)

/-- Spec: word-likeness as literally stated — length at least 2, digits do not
outnumber letters, a vowel occurs, no character (none excluded) repeats three
or more times consecutively, no run of four or more consonants. -/
def wordLikeSpec (s : String) : Bool :=
  decide (2 ≤ s.data.length) && decide (digitCount s ≤ letterCount s) &&
  s.data.any isVowel && !hasTripleRepeatAny s.data && !hasConsRun4 s.data

/-- Word-likeness with the triple-repeat test restricted to
non-line-terminator characters, as the source's regex `.` actually behaves. -/
def wordLikeAmended (s : String) : Bool :=
  decide (2 ≤ s.data.length) && decide (digitCount s ≤ letterCount s) &&
  s.data.any isVowel && !hasTripleRepeat s.data && !hasConsRun4 s.data

/-! ## Concrete example documents -/

/-- Item carrying the badge `New`. -/
def itemNew : HNode :=
  .elem "div" [("class", "item")] [.elem "span" [("class", "badge")] [.text "New"]]

/-- Structurally identical item with an empty badge span. -/
def itemPlain : HNode :=
  .elem "div" [("class", "item")] [.elem "span" [("class", "badge")] []]

/-- Container of claim C1: five structurally identical children, three with
badge `New`, two with none. -/
def exC1 : HNode :=
  .elem "div" [] [itemNew, itemNew, itemNew, itemPlain, itemPlain]

/-- A button with the given label. -/
def buttonNode (s : String) : HNode :=
  .elem "button" [] [.text s]

/-- Three identical buttons all carrying the same single badge `New`. -/
def exC3 : HNode :=
  .elem "div" [] [buttonNode "New", buttonNode "New", buttonNode "New"]

/-- Container of three empty identical divs (two get removed). -/
def exC4 : HNode :=
  .elem "div" [] [.elem "div" [] [], .elem "div" [] [], .elem "div" [] []]

/-- A row of `n` empty spans. -/
def spanRow (n : Nat) : HNode :=
  .elem "div" [] (List.replicate n (.elem "span" [] []))

/-- Tree on which a second deduplication pass removes further elements: the
three rows have distinct signatures before the first pass (3, 4 and 5 span
children), but each collapses to a single span child, making the rows
signature-equal on the second pass. -/
def exC5 : HNode :=
  .elem "div" [] [spanRow 3, spanRow 4, spanRow 5]

/-- Elements with identical tag and classes differing only at the 6th child. -/
def exC6a : HNode :=
  .elem "ul" [] (List.replicate 6 (.elem "li" [] []))

/-- Variant of `exC6a` with a different 6th child. -/
def exC6b : HNode :=
  .elem "ul" [] (List.replicate 5 (.elem "li" [] []) ++ [.elem "div" [("class", "x")] []])

/-- Container with only two structurally identical children. -/
def exC9 : HNode :=
  .elem "div" [] [.elem "p" [] [], .elem "p" [] []]

/-- Three identical buttons with pairwise distinct badges: a qualifying
partition from which nothing is removed. -/
def exC10 : HNode :=
  .elem "div" [] [buttonNode "A", buttonNode "B", buttonNode "C"]

/-- Child list of `exC1`. -/
def csC1 : List HNode :=
  [itemNew, itemNew, itemNew, itemPlain, itemPlain]

/-- The single structural group of `csC1`, with document positions. -/
def gC1 : List (Nat × HNode) :=
  [(0, itemNew), (1, itemNew), (2, itemNew), (3, itemPlain), (4, itemPlain)]

/-- Signature shared by the members of `gC1`. -/
def sigC1 : String :=
  "div[item](span[badge])"

/-- Child list of `exC3`. -/
def csC3 : List HNode :=
  [buttonNode "New", buttonNode "New", buttonNode "New"]

/-- The single structural group of `csC3`. -/
def gC3 : List (Nat × HNode) :=
  [(0, buttonNode "New"), (1, buttonNode "New"), (2, buttonNode "New")]

/-- Child list of `exC9`. -/
def csC9 : List HNode :=
  [.elem "p" [] [], .elem "p" [] []]

/-- Child list of `exC10`. -/
def csC10 : List HNode :=
  [buttonNode "A", buttonNode "B", buttonNode "C"]

/-- The single structural group of `csC10`. -/
def gC10 : List (Nat × HNode) :=
  [(0, buttonNode "A"), (1, buttonNode "B"), (2, buttonNode "C")]

/-- Is every child either a non-element or an element with no element
children?  (Tree height at most 2 below the node owning these children.) -/
def leafOrText : HNode → Bool
  | .elem _ _ cs => cs.all (fun c => !isElem c)
  | _ => true

/-- Flat child list: all children are leaves or text/comments. -/
def flatChildren (cs : List HNode) : Bool :=
  cs.all leafOrText

/-! # Theorems -/

/-! ## Lemmas on insertion-ordered maps -/

theorem lookupKey_cons (k k2 : String) (vs : β) (rest : List (String × β)) :
    lookupKey k ((k2, vs) :: rest) = if k2 = k then some vs else lookupKey k rest := by
  by_cases h : k2 = k
  · subst h
    unfold lookupKey
    rw [List.find?_cons_of_pos _ (by simp)]
    simp
  · unfold lookupKey
    rw [List.find?_cons_of_neg _ (by simpa using h), if_neg h]

theorem groupPush_cons (k2 : String) (vs : List α) (rest : List (String × List α))
    (k : String) (v : α) :
    groupPush ((k2, vs) :: rest) k v =
      if k2 = k then (k2, vs ++ [v]) :: rest else (k2, vs) :: groupPush rest k v := by
  by_cases h : k2 = k
  · simp [groupPush, h]
  · simp [groupPush, h]

theorem lookupKey_groupPush (m : List (String × List α)) (k k2 : String) (v : α) :
    lookupKey k (groupPush m k2 v) =
      if k = k2 then some ((lookupKey k m).getD [] ++ [v]) else lookupKey k m := by
  induction m with
  | nil =>
    by_cases h : k = k2
    · subst h; simp [groupPush, lookupKey_cons, lookupKey]
    · rw [if_neg h]
      show lookupKey k [(k2, [v])] = lookupKey k []
      rw [lookupKey_cons, if_neg (Ne.symm h)]
  | cons e rest ih =>
    obtain ⟨k3, vs⟩ := e
    rw [groupPush_cons]
    by_cases h3 : k3 = k2
    · subst h3
      rw [if_pos rfl, lookupKey_cons]
      by_cases h : k3 = k
      · subst h
        rw [if_pos rfl, lookupKey_cons, if_pos rfl]
        simp
      · rw [if_neg h, lookupKey_cons, if_neg h,
          if_neg (show ¬ k = k3 from fun hc => h hc.symm)]
    · rw [if_neg h3, lookupKey_cons, lookupKey_cons]
      by_cases h : k3 = k
      · subst h
        rw [if_pos rfl, if_pos rfl, if_neg (fun hc => h3 (by rw [hc]))]
      · rw [if_neg h, if_neg h, ih]

theorem lookupKey_foldl_push (key : α → String) (l : List α)
    (m : List (String × List α)) (k : String) :
    lookupKey k (l.foldl (fun acc v => groupPush acc (key v) v) m) =
      (if (l.filter (fun x => key x == k)).isEmpty then lookupKey k m
       else some ((lookupKey k m).getD [] ++ l.filter (fun x => key x == k))) := by
  induction l generalizing m with
  | nil => simp
  | cons x xs ih =>
    simp only [List.foldl_cons]
    rw [ih]
    by_cases hx : key x = k
    · rw [List.filter_cons_of_pos (by simp [hx])]
      rw [lookupKey_groupPush, if_pos hx.symm]
      by_cases he : (xs.filter (fun y => key y == k)).isEmpty
      · rw [if_pos he, if_neg (by simp)]
        have hnil : xs.filter (fun y => key y == k) = [] := by simpa using he
        rw [hnil]
      · rw [if_neg he, if_neg (by simp)]
        rw [Option.getD_some, List.append_assoc, List.singleton_append]
    · rw [List.filter_cons_of_neg (by simp [hx])]
      rw [lookupKey_groupPush, if_neg (show ¬ k = key x from fun h => hx h.symm)]

theorem lookupKey_groupByKey (key : α → String) (l : List α) (k : String) :
    lookupKey k (groupByKey key l) =
      (if (l.filter (fun x => key x == k)).isEmpty then none
       else some (l.filter (fun x => key x == k))) := by
  unfold groupByKey
  rw [lookupKey_foldl_push]
  simp [lookupKey]

theorem keysOf_groupPush (m : List (String × List α)) (k : String) (v : α) :
    keysOf (groupPush m k v) =
      if k ∈ keysOf m then keysOf m else keysOf m ++ [k] := by
  induction m with
  | nil => simp [groupPush, keysOf]
  | cons e rest ih =>
    obtain ⟨k2, vs⟩ := e
    by_cases h : k2 = k
    · subst h; simp [groupPush, keysOf]
    · simp only [groupPush, beq_false_of_ne h, Bool.false_eq_true, if_false]
      simp only [keysOf, List.map_cons, List.mem_cons] at ih ⊢
      rw [ih]
      by_cases hk : k ∈ List.map (fun e => e.1) rest
      · simp [hk, Ne.symm h]
      · simp [hk, Ne.symm h]

theorem keysOf_foldl_push (key : α → String) (l : List α) (m : List (String × List α)) :
    keysOf (l.foldl (fun acc v => groupPush acc (key v) v) m) =
      keysOf m ++ firstOcc (keysOf m) (l.map key) := by
  induction l generalizing m with
  | nil => simp [firstOcc]
  | cons x xs ih =>
    simp only [List.foldl_cons, List.map_cons, firstOcc]
    rw [ih, keysOf_groupPush]
    by_cases h : key x ∈ keysOf m
    · simp [h]
    · simp [h]

theorem keysOf_groupByKey (key : α → String) (l : List α) :
    keysOf (groupByKey key l) = firstOcc [] (l.map key) := by
  unfold groupByKey
  rw [keysOf_foldl_push]
  simp [keysOf]

theorem mem_firstOcc (seen : List String) (l : List String) (k : String) :
    k ∈ firstOcc seen l ↔ k ∈ l ∧ k ∉ seen := by
  induction l generalizing seen with
  | nil => simp [firstOcc]
  | cons x xs ih =>
    simp only [firstOcc]
    by_cases h : x ∈ seen
    · rw [if_pos h, ih]
      constructor
      · rintro ⟨h1, h2⟩; exact ⟨List.mem_cons_of_mem _ h1, h2⟩
      · rintro ⟨h1, h2⟩
        rcases List.mem_cons.mp h1 with h1 | h1
        · subst h1; exact absurd h h2
        · exact ⟨h1, h2⟩
    · rw [if_neg h]
      constructor
      · intro h1
        rcases List.mem_cons.mp h1 with h1 | h1
        · subst h1; exact ⟨List.mem_cons_self _ _, h⟩
        · obtain ⟨h2, h3⟩ := (ih (seen ++ [x])).mp h1
          exact ⟨List.mem_cons_of_mem _ h2,
            fun hc => h3 (List.mem_append.mpr (Or.inl hc))⟩
      · rintro ⟨h1, h2⟩
        by_cases hkx : k = x
        · subst hkx; exact List.mem_cons_self _ _
        · rcases List.mem_cons.mp h1 with h1 | h1
          · exact absurd h1 hkx
          · refine List.mem_cons_of_mem _ ((ih (seen ++ [x])).mpr ⟨h1, ?_⟩)
            intro hc
            rcases List.mem_append.mp hc with hc | hc
            · exact h2 hc
            · exact hkx (List.mem_singleton.mp hc)

theorem nodup_firstOcc (seen : List String) (l : List String) :
    (firstOcc seen l).Nodup := by
  induction l generalizing seen with
  | nil => simp [firstOcc]
  | cons x xs ih =>
    simp only [firstOcc]
    by_cases h : x ∈ seen
    · rw [if_pos h]; exact ih seen
    · rw [if_neg h]
      refine List.nodup_cons.mpr ⟨fun hc => ?_, ih (seen ++ [x])⟩
      exact ((mem_firstOcc _ _ _).mp hc).2 (List.mem_append.mpr (Or.inr (List.mem_singleton.mpr rfl)))

theorem keysOf_groupByKey_nodup (key : α → String) (l : List α) :
    (keysOf (groupByKey key l)).Nodup := by
  rw [keysOf_groupByKey]; exact nodup_firstOcc _ _

theorem lookupKey_of_mem_of_nodup (m : List (String × β)) (k : String) (vs : β)
    (hn : (keysOf m).Nodup) (hm : (k, vs) ∈ m) : lookupKey k m = some vs := by
  induction m with
  | nil => simp at hm
  | cons e rest ih =>
    obtain ⟨k2, vs2⟩ := e
    simp only [keysOf, List.map_cons, List.nodup_cons] at hn
    rcases List.mem_cons.mp hm with hm | hm
    · have hk : k = k2 := congrArg Prod.fst hm
      have hv : vs = vs2 := congrArg Prod.snd hm
      subst hk; subst hv
      rw [lookupKey_cons, if_pos rfl]
    · have hmem : k ∈ List.map (fun e => e.1) rest :=
        List.mem_map.mpr ⟨(k, vs), hm, rfl⟩
      have hne : k2 ≠ k := by
        intro heq
        exact hn.1 (by rw [heq]; exact hmem)
      rw [lookupKey_cons, if_neg hne]
      exact ih hn.2 hm

theorem mem_of_lookupKey (m : List (String × β)) (k : String) (vs : β)
    (h : lookupKey k m = some vs) : (k, vs) ∈ m := by
  unfold lookupKey at h
  obtain ⟨e, he, hmap⟩ := Option.map_eq_some'.mp h
  have hk := List.find?_some he
  have hmem := List.mem_of_find?_eq_some he
  obtain ⟨k2, vs2⟩ := e
  simp only [beq_iff_eq] at hk
  cases hk
  cases hmap
  exact hmem

theorem mem_groupByKey_iff (key : α → String) (l : List α) (k : String) (vs : List α) :
    (k, vs) ∈ groupByKey key l ↔
      (vs = l.filter (fun x => key x == k) ∧ vs ≠ []) := by
  constructor
  · intro hm
    have hl := lookupKey_of_mem_of_nodup _ _ _ (keysOf_groupByKey_nodup key l) hm
    rw [lookupKey_groupByKey] at hl
    by_cases he : (l.filter (fun x => key x == k)).isEmpty
    · rw [if_pos he] at hl; exact absurd hl (by simp)
    · rw [if_neg he] at hl
      injection hl with hl
      refine ⟨hl.symm, ?_⟩
      rw [← hl]
      intro hc
      rw [hc] at he
      exact he rfl
  · rintro ⟨hvs, hne⟩
    apply mem_of_lookupKey
    have he : (l.filter (fun x => key x == k)).isEmpty = false := by
      rw [← hvs]
      simpa using hne
    rw [lookupKey_groupByKey, he, hvs]
    simp

/-! ## Lemmas on positioned children and structural groups -/

theorem le_fst_of_mem_idxFrom (l : List α) (i : Nat) (p : Nat × α)
    (h : p ∈ idxFrom i l) : i ≤ p.1 := by
  induction l generalizing i with
  | nil => simp [idxFrom] at h
  | cons x xs ih =>
    rcases List.mem_cons.mp h with h | h
    · rw [h]
    · have := ih (i + 1) h
      omega

theorem pairwise_lt_idxFrom (l : List α) (i : Nat) :
    (idxFrom i l).Pairwise (fun p q => p.1 < q.1) := by
  induction l generalizing i with
  | nil => exact List.Pairwise.nil
  | cons x xs ih =>
    refine List.pairwise_cons.mpr ⟨?_, ih (i + 1)⟩
    intro q hq
    have := le_fst_of_mem_idxFrom _ _ _ hq
    show i < q.1
    omega

theorem fst_inj_of_pairwise (L : List (Nat × α))
    (hL : L.Pairwise (fun p q => p.1 < q.1)) (p q : Nat × α)
    (hp : p ∈ L) (hq : q ∈ L) (h : p.1 = q.1) : p = q := by
  induction L with
  | nil => simp at hp
  | cons x xs ih =>
    obtain ⟨hx, hxs⟩ := List.pairwise_cons.mp hL
    rcases List.mem_cons.mp hp with hp | hp <;> rcases List.mem_cons.mp hq with hq | hq
    · rw [hp, hq]
    · exfalso
      have := hx q hq
      rw [hp] at h
      omega
    · exfalso
      have := hx p hp
      rw [hq] at h
      omega
    · exact ih hxs hp hq

theorem elemsIdx_pairwise (cs : List HNode) :
    (elemsIdx cs).Pairwise (fun p q => p.1 < q.1) :=
  (pairwise_lt_idxFrom cs 0).sublist (List.filter_sublist _)

theorem mem_structGroups (cs : List HNode) (s : String) (g : List (Nat × HNode)) :
    (s, g) ∈ structGroups cs ↔
      (g = (elemsIdx cs).filter (fun p => getElementSignature p.2 == s) ∧ g ≠ []) :=
  mem_groupByKey_iff _ _ _ _

theorem group_pairwise {cs : List HNode} {s : String} {g : List (Nat × HNode)}
    (hg : (s, g) ∈ structGroups cs) :
    g.Pairwise (fun p q => p.1 < q.1) := by
  obtain ⟨hchar, -⟩ := (mem_structGroups _ _ _).mp hg
  rw [hchar]
  exact (elemsIdx_pairwise cs).sublist (List.filter_sublist _)

theorem sig_of_mem_group {cs : List HNode} {s : String} {g : List (Nat × HNode)}
    {p : Nat × HNode} (hg : (s, g) ∈ structGroups cs) (hp : p ∈ g) :
    p ∈ elemsIdx cs ∧ getElementSignature p.2 = s := by
  obtain ⟨hchar, -⟩ := (mem_structGroups _ _ _).mp hg
  rw [hchar] at hp
  have h := List.mem_filter.mp hp
  exact ⟨h.1, by simpa using h.2⟩

theorem structGroups_disjoint {cs : List HNode} {s s2 : String}
    {g g2 : List (Nat × HNode)} {p q : Nat × HNode}
    (hg : (s, g) ∈ structGroups cs) (hg2 : (s2, g2) ∈ structGroups cs)
    (hp : p ∈ g) (hq : q ∈ g2) (hfst : p.1 = q.1) :
    s = s2 ∧ g = g2 ∧ p = q := by
  obtain ⟨hpe, hps⟩ := sig_of_mem_group hg hp
  obtain ⟨hqe, hqs⟩ := sig_of_mem_group hg2 hq
  have hpq : p = q := fst_inj_of_pairwise _ (elemsIdx_pairwise cs) _ _ hpe hqe hfst
  subst hpq
  have hs : s = s2 := by rw [← hps, ← hqs]
  subst hs
  obtain ⟨h1, -⟩ := (mem_structGroups _ _ _).mp hg
  obtain ⟨h2, -⟩ := (mem_structGroups _ _ _).mp hg2
  exact ⟨rfl, h1.trans h2.symm, rfl⟩

theorem mem_qualGroups {T : Nat} {cs : List HNode} {s : String} {g : List (Nat × HNode)}
    (hg : (s, g) ∈ structGroups cs) (hT : T ≤ g.length) :
    (s, g) ∈ qualGroups T cs := by
  have hle : g.length ≤ (elemsIdx cs).length := by
    obtain ⟨hchar, -⟩ := (mem_structGroups _ _ _).mp hg
    rw [hchar]
    exact List.length_filter_le _ _
  unfold qualGroups
  rw [if_neg (by omega)]
  exact List.mem_filter.mpr ⟨hg, by simpa using hT⟩

theorem mem_of_qualGroups {T : Nat} {cs : List HNode} {sg : String × List (Nat × HNode)}
    (h : sg ∈ qualGroups T cs) :
    sg ∈ structGroups cs ∧ T ≤ sg.2.length := by
  unfold qualGroups at h
  by_cases hc : (elemsIdx cs).length < T
  · rw [if_pos hc] at h
    simp at h
  · rw [if_neg hc] at h
    have h2 := List.mem_filter.mp h
    exact ⟨h2.1, by simpa using h2.2⟩

theorem containerRemoved_eq (T : Nat) (cs : List HNode) :
    containerRemoved T cs = (qualGroups T cs).flatMap (fun sg => groupRemoved sg.2) := by
  have hf : ∀ sg : String × List (Nat × HNode),
      (match sg.2 with
       | [] => ([] : List Nat)
       | _ :: _ => groupRemoved sg.2) = groupRemoved sg.2 := by
    intro sg
    cases h2 : sg.2 with
    | nil => simp [groupRemoved]
    | cons a l => rfl
  unfold containerRemoved
  simp only [hf]

theorem mem_containerRemoved (T : Nat) (cs : List HNode) (i : Nat) :
    i ∈ containerRemoved T cs ↔
      ∃ sg ∈ qualGroups T cs, i ∈ groupRemoved sg.2 := by
  rw [containerRemoved_eq]
  exact List.mem_flatMap

theorem mem_groupRemoved (g : List (Nat × HNode)) (i : Nat) :
    i ∈ groupRemoved g ↔ ∃ p ∈ g, p.1 = i ∧ p.1 ∉ keptIdx g := by
  unfold groupRemoved
  constructor
  · intro h
    obtain ⟨p, hp, hpi⟩ := List.mem_map.mp h
    have h2 := List.mem_filter.mp hp
    exact ⟨p, h2.1, hpi, by simpa using h2.2⟩
  · rintro ⟨p, hp, hpi, hpk⟩
    exact List.mem_map.mpr ⟨p, List.mem_filter.mpr ⟨hp, by simpa using hpk⟩, hpi⟩

theorem mem_containerMarkers (T : Nat) (cs : List HNode) (mk : Nat × List HNode) :
    mk ∈ containerMarkers T cs ↔
      ∃ sg ∈ qualGroups T cs, ∃ e tl,
        sg.2 = (mk.1, e) :: tl ∧ mk.2 = markerNodes sg.2 := by
  unfold containerMarkers
  rw [List.mem_filterMap]
  constructor
  · rintro ⟨sg, hsg, hfn⟩
    obtain ⟨sgk, sgv⟩ := sg
    cases sgv with
    | nil => simp at hfn
    | cons hd tl0 =>
      obtain ⟨i0, e0⟩ := hd
      simp only [Option.some.injEq] at hfn
      refine ⟨(sgk, (i0, e0) :: tl0), hsg, e0, tl0, ?_, ?_⟩
      · rw [← hfn]
      · rw [← hfn]
  · rintro ⟨sg, hsg, e, tl, h2, hmk⟩
    refine ⟨sg, hsg, ?_⟩
    rw [h2]
    simp only [Option.some.injEq]
    have hmk2 : markerNodes ((mk.1, e) :: tl) = mk.2 := by
      rw [← h2]
      exact hmk.symm
    rw [hmk2]

/-! ## Retention characterization (first holder per badge key) -/

theorem find?_eq_head_filter (p : α → Bool) (l : List α) :
    l.find? p = (l.filter p).head? := by
  induction l with
  | nil => rfl
  | cons x xs ih =>
    by_cases h : p x
    · rw [List.find?_cons_of_pos _ h, List.filter_cons_of_pos h, List.head?_cons]
    · rw [List.find?_cons_of_neg _ (by simpa using h),
        List.filter_cons_of_neg (by simpa using h)]
      exact ih

theorem mem_badgeGroups (g : List (Nat × HNode)) (k : String) (vs : List (Nat × HNode)) :
    (k, vs) ∈ badgeGroups g ↔
      (vs = g.filter (fun p => badgeKey p.2 == k) ∧ vs ≠ []) :=
  mem_groupByKey_iff _ _ _ _

theorem keptIdx_iff_first (g : List (Nat × HNode))
    (hpw : g.Pairwise (fun p q => p.1 < q.1)) (p : Nat × HNode) (hp : p ∈ g) :
    p.1 ∈ keptIdx g ↔
      (g.filter (fun q => badgeKey q.2 == badgeKey p.2)).head? = some p := by
  unfold keptIdx
  rw [List.mem_filterMap]
  constructor
  · rintro ⟨bg, hbg, hmap⟩
    obtain ⟨q, hq, hqi⟩ := Option.map_eq_some'.mp hmap
    obtain ⟨k, vs⟩ := bg
    obtain ⟨hchar, -⟩ := (mem_badgeGroups _ _ _).mp hbg
    rw [hchar] at hq
    have hqmem : q ∈ g := (List.mem_filter.mp (List.mem_of_mem_head? hq)).1
    have hqk : (badgeKey q.2 == k) = true :=
      (List.mem_filter.mp (List.mem_of_mem_head? hq)).2
    have hqp : q = p := fst_inj_of_pairwise _ hpw _ _ hqmem hp hqi
    subst hqp
    have hk : k = badgeKey q.2 := (beq_iff_eq.mp hqk).symm
    rw [hk] at hq
    exact hq
  · intro hhead
    refine ⟨(badgeKey p.2, g.filter (fun q => badgeKey q.2 == badgeKey p.2)), ?_, ?_⟩
    · refine (mem_badgeGroups _ _ _).mpr ⟨rfl, ?_⟩
      intro hc
      rw [hc] at hhead
      simp at hhead
    · rw [hhead]
      rfl

theorem mem_specKept_iff (g : List (Nat × HNode))
    (hpw : g.Pairwise (fun p q => p.1 < q.1)) (p : Nat × HNode) :
    p ∈ specKept g ↔
      p ∈ g ∧ (g.filter (fun q => badgeKey q.2 == badgeKey p.2)).head? = some p := by
  unfold specKept
  rw [List.mem_filter]
  rw [← find?_eq_head_filter]
  constructor
  · rintro ⟨hp, hfind⟩
    have hfind2 : (List.find? (fun q => badgeKey q.2 == badgeKey p.2) g).map
        (fun q => q.1) = some p.1 := by simpa using hfind
    obtain ⟨q, hq, hqi⟩ := Option.map_eq_some'.mp hfind2
    have hqmem : q ∈ g := List.mem_of_find?_eq_some hq
    have hqp : q = p := fst_inj_of_pairwise _ hpw _ _ hqmem hp hqi
    rw [hqp] at hq
    exact ⟨hp, hq⟩
  · rintro ⟨hp, hfind⟩
    refine ⟨hp, ?_⟩
    rw [hfind]
    simp

theorem kept_iff_specKept {g : List (Nat × HNode)}
    (hpw : g.Pairwise (fun p q => p.1 < q.1)) {p : Nat × HNode} (hp : p ∈ g) :
    p.1 ∈ keptIdx g ↔ p ∈ specKept g := by
  rw [keptIdx_iff_first g hpw p hp, mem_specKept_iff g hpw p]
  exact (and_iff_right hp).symm

theorem removed_iff_not_specKept {T : Nat} {cs : List HNode} {s : String}
    {g : List (Nat × HNode)} (hg : (s, g) ∈ structGroups cs) (hT : T ≤ g.length)
    {p : Nat × HNode} (hp : p ∈ g) :
    p.1 ∈ containerRemoved T cs ↔ p ∉ specKept g := by
  rw [mem_containerRemoved]
  constructor
  · rintro ⟨sg, hsg, hrem⟩
    obtain ⟨hsg_mem, -⟩ := mem_of_qualGroups hsg
    obtain ⟨q, hq, hqi, hqk⟩ := (mem_groupRemoved _ _).mp hrem
    obtain ⟨sg1, sg2⟩ := sg
    obtain ⟨-, hgg, hpq⟩ := structGroups_disjoint hsg_mem hg hq hp hqi
    rw [hgg] at hqk
    rw [hpq] at hqk
    intro hspec
    exact hqk ((kept_iff_specKept (group_pairwise hg) hp).mpr hspec)
  · intro hns
    refine ⟨(s, g), mem_qualGroups hg hT, ?_⟩
    rw [mem_groupRemoved]
    refine ⟨p, hp, rfl, ?_⟩
    intro hk
    exact hns ((kept_iff_specKept (group_pairwise hg) hp).mp hk)

theorem small_group_untouched {T : Nat} {cs : List HNode} {s : String}
    {g : List (Nat × HNode)} (hg : (s, g) ∈ structGroups cs) (hlt : g.length < T)
    {p : Nat × HNode} (hp : p ∈ g) :
    p.1 ∉ containerRemoved T cs ∧ ∀ mk ∈ containerMarkers T cs, mk.1 ≠ p.1 := by
  constructor
  · intro hrem
    obtain ⟨sg, hsg, hrem2⟩ := (mem_containerRemoved _ _ _).mp hrem
    obtain ⟨hsg_mem, hsgT⟩ := mem_of_qualGroups hsg
    obtain ⟨q, hq, hqi, -⟩ := (mem_groupRemoved _ _).mp hrem2
    obtain ⟨sg1, sg2⟩ := sg
    obtain ⟨-, hgg, -⟩ := structGroups_disjoint hsg_mem hg hq hp hqi
    have hsgT2 : T ≤ sg2.length := hsgT
    rw [hgg] at hsgT2
    omega
  · intro mk hmk heq
    obtain ⟨sg, hsg, e, tl, h2, -⟩ := (mem_containerMarkers _ _ _).mp hmk
    obtain ⟨hsg_mem, hsgT⟩ := mem_of_qualGroups hsg
    have hhd : (mk.1, e) ∈ sg.2 := by
      rw [h2]
      exact List.mem_cons_self _ _
    obtain ⟨sg1, sg2⟩ := sg
    obtain ⟨-, hgg, -⟩ := structGroups_disjoint hsg_mem hg hhd hp heq
    have hsgT2 : T ≤ sg2.length := hsgT
    rw [hgg] at hsgT2
    omega

/-! ## Classifier claims -/

theorem safeWord_not_generated (name : String) (h : asciiLower name ∈ safeWords) :
    isGeneratedIdentifier name = false := by
  unfold isGeneratedIdentifier
  by_cases h0 : name.data.length = 0
  · rw [if_pos h0]
  · rw [if_neg h0, if_pos (List.any_eq_true.mpr ⟨asciiLower name, h, by simp⟩)]

/-- C2: the classifier returns the specified verdicts on the listed tokens,
and any token whose lowercasing is on the allow-list is classified as not
generated (so the allow-list match is case-insensitive and overrides all later
rules); in particular both `Content` and `content` yield `false`. -/
theorem classifier_verdicts :
    isGeneratedIdentifier "css-1a2b3c" = true ∧
    isGeneratedIdentifier "video-title" = false ∧
    isGeneratedIdentifier "d2l_1_7_757" = true ∧
    isGeneratedIdentifier "ember1234" = true ∧
    isGeneratedIdentifier "is-active" = false ∧
    isGeneratedIdentifier "Content" = false ∧
    isGeneratedIdentifier "content" = false ∧
    (∀ name : String, asciiLower name ∈ safeWords → isGeneratedIdentifier name = false) :=
  ⟨by decide, by decide, by decide, by decide, by decide, by decide, by decide,
   safeWord_not_generated⟩

/-- Witness for the allow-list clause of `classifier_verdicts` at the concrete
token `Content`. -/
theorem classifier_verdicts_witness :
    isGeneratedIdentifier "Content" = false :=
  classifier_verdicts.2.2.2.2.2.2.2 "Content" (by decide)

theorem isWordLike_eq_amended (s : String) : isWordLike s = wordLikeAmended s := by
  unfold isWordLike wordLikeAmended
  by_cases h1 : s.data.length < 2
  · rw [if_pos h1, decide_eq_false (by omega : ¬ 2 ≤ s.data.length)]
    simp
  · rw [if_neg h1, decide_eq_true (by omega : 2 ≤ s.data.length)]
    by_cases h2 : digitCount s > letterCount s
    · rw [if_pos h2, decide_eq_false (by omega : ¬ digitCount s ≤ letterCount s)]
      simp
    · rw [if_neg h2, decide_eq_true (by omega : digitCount s ≤ letterCount s)]
      by_cases h3 : s.data.any isVowel
      · rw [if_neg (by simpa using h3), h3]
        by_cases h4 : hasTripleRepeat s.data
        · rw [if_pos h4, h4]
          simp
        · rw [if_neg h4]
          simp only [Bool.not_eq_true] at h4
          rw [h4]
          by_cases h5 : hasConsRun4 s.data
          · rw [if_pos h5, h5]
            simp
          · rw [if_neg h5]
            simp only [Bool.not_eq_true] at h5
            rw [h5]
            simp
      · rw [if_pos (by simpa using h3)]
        simp only [Bool.not_eq_true] at h3
        rw [h3]
        simp

/-- C7 counterexample: on the segment `"aa\n\n\n"` the source's `isWordLike`
returns `true` (the regex `.` in `(.)\1{2,}` does not match the newline, so
the triple newline is not seen as a repeated character), while the claimed
characterization — under which any character repeating 3+ times disqualifies
the segment — returns `false`. -/
theorem wordLike_spec_counterexample :
    isWordLike (String.mk ['a', 'a', '\n', '\n', '\n']) = true ∧
    wordLikeSpec (String.mk ['a', 'a', '\n', '\n', '\n']) = false := by
  constructor
  · decide
  · decide

/-- C7 (amended): word-likeness holds exactly when length is at least 2, the
digit count does not exceed the letter count, a vowel is present, no character
other than a line terminator (which the source regex's `.` skips) repeats 3+
times consecutively, and no run of 4+ consonants occurs; `button` is word-like
and `xyzzqq` is not. -/
theorem wordLike_characterization :
    (∀ s : String, isWordLike s = wordLikeAmended s) ∧
    isWordLike "button" = true ∧ isWordLike "xyzzqq" = false :=
  ⟨isWordLike_eq_amended, by decide, by decide⟩

/-- Witness for `wordLike_characterization` at the concrete segment
`button`. -/
theorem wordLike_characterization_witness :
    isWordLike "button" = wordLikeAmended "button" :=
  wordLike_characterization.1 "button"

/-- C8: both engines are total by construction (every definition above is a
total Lean function over all trees), and missing attributes degrade rather
than fail: the empty identifier is "not generated", a missing class attribute
reads as no classes, an attribute-less empty element has an empty badge set,
the sentinel badge key, a plain signature, and is left untouched by the
deduplicator. -/
theorem engines_total_degrade :
    isGeneratedIdentifier "" = false ∧
    filterClasses true none = "" ∧
    getAttr [] "class" = none ∧
    extractBadges (.elem "div" [] []) = [] ∧
    badgeKey (.elem "div" [] []) = "(none)" ∧
    getElementSignature (.elem "div" [] []) = "div[]()" ∧
    dedupNode 3 (.elem "div" [] []) = (.elem "div" [] [], 0) :=
  ⟨by decide, by decide, rfl, rfl, rfl, rfl, rfl⟩

/-! ## Claim C6: bounded signatures -/

theorem childSigOf_factors (c : HNode) (hc : isElem c = true) :
    childSigOf c = (childSummary c).1 ++ "[" ++ joinSep "," (childSummary c).2 ++ "]" := by
  cases c with
  | elem t a cs => rfl
  | text s => simp [isElem] at hc
  | comment s => simp [isElem] at hc

theorem map_childSigOf_congr {l1 l2 : List HNode}
    (h1 : ∀ c ∈ l1, isElem c = true) (h2 : ∀ c ∈ l2, isElem c = true)
    (hsum : l1.map childSummary = l2.map childSummary) :
    l1.map childSigOf = l2.map childSigOf := by
  induction l1 generalizing l2 with
  | nil =>
    cases l2 with
    | nil => rfl
    | cons y ys => simp at hsum
  | cons x xs ih =>
    cases l2 with
    | nil => simp at hsum
    | cons y ys =>
      simp only [List.map_cons, List.cons.injEq] at hsum ⊢
      obtain ⟨hxy, hrest⟩ := hsum
      refine ⟨?_, ih (fun c hc => h1 c (List.mem_cons_of_mem _ hc))
        (fun c hc => h2 c (List.mem_cons_of_mem _ hc)) hrest⟩
      rw [childSigOf_factors x (h1 x (List.mem_cons_self _ _)),
        childSigOf_factors y (h2 y (List.mem_cons_self _ _)), hxy]

theorem mem_take_filter_isElem {cs : List HNode} {c : HNode}
    (hc : c ∈ (cs.filter isElem).take 5) : isElem c = true :=
  (List.mem_filter.mp (List.mem_of_mem_take hc)).2

/-- C6: the signature of an element is a function of its tag, its class
attribute, and — for at most the first 5 element children — each child's tag
and first 3 sorted classes only; consequently two elements with identical tag
and classes whose child lists agree on that data (in particular, lists that
differ only at the 6th or later child) are signature-equal. -/
theorem signature_bounded :
    (∀ (tag : String) (attrs1 attrs2 : List (String × String)) (cs1 cs2 : List HNode),
       getAttrD attrs1 "class" = getAttrD attrs2 "class" →
       ((cs1.filter isElem).take 5).map childSummary =
         ((cs2.filter isElem).take 5).map childSummary →
       getElementSignature (.elem tag attrs1 cs1) = getElementSignature (.elem tag attrs2 cs2)) ∧
    getElementSignature exC6a = getElementSignature exC6b := by
  have hmain : ∀ (tag : String) (attrs1 attrs2 : List (String × String)) (cs1 cs2 : List HNode),
      getAttrD attrs1 "class" = getAttrD attrs2 "class" →
      ((cs1.filter isElem).take 5).map childSummary =
        ((cs2.filter isElem).take 5).map childSummary →
      getElementSignature (.elem tag attrs1 cs1) = getElementSignature (.elem tag attrs2 cs2) := by
    intro tag attrs1 attrs2 cs1 cs2 hcls hkids
    show asciiLower tag ++ "[" ++ joinSep "," (sortedClasses attrs1) ++ "](" ++
        joinSep ";" (((cs1.filter isElem).take 5).map childSigOf) ++ ")" = _
    have hsc : sortedClasses attrs1 = sortedClasses attrs2 := by
      unfold sortedClasses
      rw [hcls]
    rw [hsc, map_childSigOf_congr (fun c hc => mem_take_filter_isElem hc)
      (fun c hc => mem_take_filter_isElem hc) hkids]
    rfl
  refine ⟨hmain, hmain "ul" [] [] _ _ rfl (by decide)⟩

/-- Witness for `signature_bounded`: the two concrete lists differing only at
the 6th child have equal signatures. -/
theorem signature_bounded_witness :
    getElementSignature (.elem "ul" [] (List.replicate 6 (.elem "li" [] []))) =
      getElementSignature
        (.elem "ul" [] (List.replicate 5 (.elem "li" [] []) ++ [.elem "div" [("class", "x")] []])) :=
  signature_bounded.1 "ul" [] [] _ _ rfl (by decide)

/-! ## Properties of the spec-side retained set -/

theorem pairwise_sublist_pairs {R : α → α → Prop} {l : List α}
    (h : ∀ a b : α, [a, b].Sublist l → R a b) : l.Pairwise R := by
  induction l with
  | nil => exact List.Pairwise.nil
  | cons x xs ih =>
    refine List.pairwise_cons.mpr ⟨?_, ih ?_⟩
    · intro b hb
      exact h x b ((List.singleton_sublist.mpr hb).cons₂ x)
    · intro a b hab
      exact h a b (hab.cons x)

theorem nodup_of_pairwise_lt (L : List (Nat × HNode))
    (h : L.Pairwise (fun p q => p.1 < q.1)) : L.Nodup :=
  h.imp (fun hlt heq => by rw [heq] at hlt; omega)

theorem specKept_sublist (g : List (Nat × HNode)) : (specKept g).Sublist g :=
  List.filter_sublist _

theorem specKept_keys_pairwise (g : List (Nat × HNode))
    (hpw : g.Pairwise (fun p q => p.1 < q.1)) :
    (specKept g).Pairwise (fun p q => badgeKey p.2 ≠ badgeKey q.2) := by
  apply pairwise_sublist_pairs
  intro a b hab hk
  have ha : a ∈ specKept g := hab.subset (List.mem_cons_self _ _)
  have hb : b ∈ specKept g := hab.subset (by simp)
  obtain ⟨hag, hah⟩ := (mem_specKept_iff g hpw a).mp ha
  obtain ⟨hbg, hbh⟩ := (mem_specKept_iff g hpw b).mp hb
  have hfe : (fun (r : Nat × HNode) => badgeKey r.2 == badgeKey b.2)
      = (fun (r : Nat × HNode) => badgeKey r.2 == badgeKey a.2) := by
    funext r
    rw [hk]
  rw [hfe] at hbh
  have hab2 : a = b := by
    rw [hah] at hbh
    injection hbh
  have hnd : (specKept g).Nodup :=
    (nodup_of_pairwise_lt g hpw).sublist (specKept_sublist g)
  have : ([a, b] : List (Nat × HNode)).Nodup := hnd.sublist hab
  rw [hab2] at this
  simp at this

theorem specKept_keys_nodup (g : List (Nat × HNode))
    (hpw : g.Pairwise (fun p q => p.1 < q.1)) :
    ((specKept g).map (fun p => badgeKey p.2)).Nodup := by
  show ((specKept g).map (fun p => badgeKey p.2)).Pairwise (fun a b => a ≠ b)
  rw [List.pairwise_map]
  exact specKept_keys_pairwise g hpw

theorem specKept_complete (g : List (Nat × HNode))
    (hpw : g.Pairwise (fun p q => p.1 < q.1)) :
    ∀ p ∈ g, ∃ q ∈ specKept g, badgeKey q.2 = badgeKey p.2 := by
  intro p hp
  cases hfl : g.filter (fun r => badgeKey r.2 == badgeKey p.2) with
  | nil =>
    exfalso
    have hmem : p ∈ g.filter (fun r => badgeKey r.2 == badgeKey p.2) :=
      List.mem_filter.mpr ⟨hp, by simp⟩
    rw [hfl] at hmem
    simp at hmem
  | cons q rest =>
    have hqf : q ∈ g.filter (fun r => badgeKey r.2 == badgeKey p.2) := by
      rw [hfl]
      exact List.mem_cons_self _ _
    have hqg : q ∈ g := (List.mem_filter.mp hqf).1
    have hqk : badgeKey q.2 = badgeKey p.2 := by
      simpa using (List.mem_filter.mp hqf).2
    refine ⟨q, ?_, hqk⟩
    rw [mem_specKept_iff g hpw q]
    refine ⟨hqg, ?_⟩
    have hfe : (fun (r : Nat × HNode) => badgeKey r.2 == badgeKey q.2)
        = (fun (r : Nat × HNode) => badgeKey r.2 == badgeKey p.2) := by
      funext r
      rw [hqk]
    rw [hfe, hfl]
    rfl

/-! ## Claim C1: one retained element per badge key, the first holder -/

/-- C1: within every qualifying structural partition the engine removes
exactly the members that are not the first holder (in document order) of
their badge key, i.e. it retains one element per distinct badge key — the
first holder (`specKept` states the spec's words; its keys are pairwise
distinct, and every member's key has a retained representative).  On the
concrete container of 5 structurally identical children, 3 with badge `New`
and 2 with none, exactly 2 elements are retained and the marker reports 5
members and `"New" (3x)`. -/
theorem dedup_retains_first_per_badgeKey :
    (∀ (T : Nat) (cs : List HNode) (s : String) (g : List (Nat × HNode)),
       (s, g) ∈ structGroups cs → T ≤ g.length →
       (∀ p ∈ g, (p.1 ∉ containerRemoved T cs ↔ p ∈ specKept g)) ∧
       ((specKept g).map (fun p => badgeKey p.2)).Nodup ∧
       (∀ p ∈ g, ∃ q ∈ specKept g, badgeKey q.2 = badgeKey p.2)) ∧
    deduplicateRepeatedStructures 3 exC1 =
      .elem "div" []
        [.text "\n", .comment " REPEATED: 5x .item ", .text "\n",
         .comment " Badge variations: \"New\" (3x) ", .text "\n", itemNew, itemPlain] ∧
    removalCount 3 exC1 = 3 := by
  refine ⟨?_, rfl, rfl⟩
  intro T cs s g hg hT
  have hpw := group_pairwise hg
  refine ⟨?_, specKept_keys_nodup g hpw, specKept_complete g hpw⟩
  intro p hp
  have h := removed_iff_not_specKept hg hT hp
  constructor
  · intro hn
    by_contra hc
    exact hn (h.mpr hc)
  · intro hs hr
    exact (h.mp hr) hs

/-- Witness for `dedup_retains_first_per_badgeKey` at the concrete container
`csC1` and its first member. -/
theorem dedup_retains_first_witness :
    (0, itemNew).1 ∉ containerRemoved 3 csC1 ↔ (0, itemNew) ∈ specKept gC1 :=
  (dedup_retains_first_per_badgeKey.1 3 csC1 sigC1 gC1
      (by rw [show structGroups csC1 = [(sigC1, gC1)] from rfl]
          exact List.mem_singleton.mpr rfl)
      (by decide)).1 (0, itemNew) (List.mem_cons_self _ _)

/-! ## Claim C9: small containers and small partitions are untouched -/

theorem qualGroups_nil {T : Nat} {cs : List HNode}
    (h : (elemsIdx cs).length < T) : qualGroups T cs = [] := by
  unfold qualGroups
  rw [if_pos h]

theorem containerMarkers_nil {T : Nat} {cs : List HNode}
    (h : (elemsIdx cs).length < T) : containerMarkers T cs = [] := by
  unfold containerMarkers
  rw [qualGroups_nil h]
  rfl

theorem containerRemoved_nil {T : Nat} {cs : List HNode}
    (h : (elemsIdx cs).length < T) : containerRemoved T cs = [] := by
  unfold containerRemoved
  rw [qualGroups_nil h]
  rfl

theorem idxFrom_map_snd (l : List α) (i : Nat) :
    (idxFrom i l).map Prod.snd = l := by
  induction l generalizing i with
  | nil => rfl
  | cons x xs ih =>
    simp only [idxFrom, List.map_cons, ih]

theorem assembleChildren_nil (pairs : List (Nat × HNode)) :
    assembleChildren [] [] pairs = pairs.map Prod.snd := by
  induction pairs with
  | nil => rfl
  | cons p rest ih =>
    obtain ⟨i, c⟩ := p
    simp [assembleChildren, ih]

theorem dedupList_eq_map (T : Nat) (cs : List HNode) :
    dedupList T cs = cs.map (dedupNode T) := by
  induction cs with
  | nil => rfl
  | cons c rest ih =>
    simp only [dedupList, List.map_cons, ih]

theorem dedupNode_elem (T : Nat) (tag : String) (attrs : List (String × String))
    (cs : List HNode) :
    dedupNode T (.elem tag attrs cs) =
      (.elem tag attrs
        (assembleChildren (containerMarkers T cs) (containerRemoved T cs)
          (idxFrom 0 ((dedupList T cs).map Prod.fst))),
       (containerRemoved T cs).length + ((dedupList T cs).map Prod.snd).sum) :=
  rfl

/-- C9: a container with fewer than `T` element children is rebuilt with no
marker and no removal (its children are only recursed into); a member of a
structural partition smaller than `T` is never removed and no marker is
attached at its position; the concrete container of just 2 structurally
identical children (T = 3) is left completely unchanged. -/
theorem small_partitions_untouched :
    (∀ (T : Nat) (tag : String) (attrs : List (String × String)) (cs : List HNode),
       (elemsIdx cs).length < T →
       dedupNode T (.elem tag attrs cs) =
         (.elem tag attrs (cs.map (fun c => (dedupNode T c).1)),
          (cs.map (fun c => (dedupNode T c).2)).sum)) ∧
    (∀ (T : Nat) (cs : List HNode) (s : String) (g : List (Nat × HNode)),
       (s, g) ∈ structGroups cs → g.length < T →
       ∀ p ∈ g, p.1 ∉ containerRemoved T cs ∧
         ∀ mk ∈ containerMarkers T cs, mk.1 ≠ p.1) ∧
    deduplicateRepeatedStructures 3 exC9 = exC9 ∧ removalCount 3 exC9 = 0 := by
  refine ⟨?_, ?_, rfl, rfl⟩
  · intro T tag attrs cs hlt
    rw [dedupNode_elem, containerMarkers_nil hlt, containerRemoved_nil hlt,
      assembleChildren_nil, idxFrom_map_snd, dedupList_eq_map, List.map_map, List.map_map]
    simp only [Function.comp_def, List.length_nil, Nat.zero_add]
  · intro T cs s g hg hlt p hp
    exact small_group_untouched hg hlt hp

/-- Witness for `small_partitions_untouched` at a container with 2 element
children and threshold 3. -/
theorem small_partitions_untouched_witness :
    dedupNode 3 (.elem "div" [] csC9) =
      (.elem "div" [] (csC9.map (fun c => (dedupNode 3 c).1)),
       (csC9.map (fun c => (dedupNode 3 c).2)).sum) :=
  small_partitions_untouched.1 3 "div" [] csC9 (by decide)

/-! ## Claim C10: marker insertion does not depend on removals -/

/-- C10: for every structural partition of size at least `T` the engine
registers a marker at the position of the partition's first member,
unconditionally — the marker insertion is decided before and independently of
the removal set; concretely, for three identical buttons with pairwise
distinct badges zero elements are removed and the marker is still inserted. -/
theorem marker_inserted_unconditionally :
    (∀ (T : Nat) (cs : List HNode) (s : String) (g : List (Nat × HNode)),
       (s, g) ∈ structGroups cs → T ≤ g.length →
       ∃ i e tl, g = (i, e) :: tl ∧ (i, markerNodes g) ∈ containerMarkers T cs) ∧
    deduplicateRepeatedStructures 3 exC10 =
      .elem "div" []
        [.text "\n", .comment " REPEATED: 3x button ", .text "\n",
         .comment " Badge variations: \"A\" (1x), \"B\" (1x), \"C\" (1x) ", .text "\n",
         buttonNode "A", buttonNode "B", buttonNode "C"] ∧
    removalCount 3 exC10 = 0 := by
  refine ⟨?_, rfl, rfl⟩
  intro T cs s g hg hT
  obtain ⟨-, hne⟩ := (mem_structGroups _ _ _).mp hg
  obtain ⟨hd, tl, hgl⟩ := List.exists_cons_of_ne_nil hne
  obtain ⟨i, e⟩ := hd
  refine ⟨i, e, tl, hgl, ?_⟩
  rw [mem_containerMarkers]
  exact ⟨(s, g), mem_qualGroups hg hT, e, tl, hgl, rfl⟩

/-- Witness for `marker_inserted_unconditionally` at the concrete container of
three distinct-badge buttons. -/
theorem marker_inserted_unconditionally_witness :
    ∃ i e tl, gC10 = (i, e) :: tl ∧
      (i, markerNodes gC10) ∈ containerMarkers 3 csC10 :=
  marker_inserted_unconditionally.1 3 csC10 "button[]()" gC10
    (by rw [show structGroups csC10 = [("button[]()", gC10)] from rfl]
        exact List.mem_singleton.mpr rfl)
    (by decide)

/-! ## Claim C3: the badge table of the marker -/

theorem bump_cons (k2 : String) (c : Nat) (rest : List (String × Nat)) (k : String) :
    bump ((k2, c) :: rest) k =
      if k2 = k then (k2, c + 1) :: rest else (k2, c) :: bump rest k := by
  by_cases h : k2 = k
  · simp [bump, h]
  · simp [bump, h]

theorem lookupKey_bump (m : List (String × Nat)) (k k2 : String) :
    lookupKey k (bump m k2) =
      if k = k2 then some ((lookupKey k m).getD 0 + 1) else lookupKey k m := by
  induction m with
  | nil =>
    by_cases h : k = k2
    · subst h
      show lookupKey k [(k, 1)] = _
      rw [lookupKey_cons, if_pos rfl, if_pos rfl]
      rfl
    · rw [if_neg h]
      show lookupKey k [(k2, 1)] = lookupKey k []
      rw [lookupKey_cons, if_neg (Ne.symm h)]
  | cons e rest ih =>
    obtain ⟨k3, c⟩ := e
    rw [bump_cons]
    by_cases h3 : k3 = k2
    · subst h3
      rw [if_pos rfl, lookupKey_cons]
      by_cases h : k3 = k
      · subst h
        rw [if_pos rfl, lookupKey_cons, if_pos rfl]
        simp
      · rw [if_neg h, lookupKey_cons, if_neg h,
          if_neg (show ¬ k = k3 from fun hc => h hc.symm)]
    · rw [if_neg h3, lookupKey_cons, lookupKey_cons]
      by_cases h : k3 = k
      · subst h
        rw [if_pos rfl, if_pos rfl, if_neg (show ¬ k3 = k2 from h3)]
      · rw [if_neg h, if_neg h, ih]

theorem lookupKey_foldl_bump (l : List String) (m : List (String × Nat)) (k : String) :
    lookupKey k (l.foldl bump m) =
      if l.count k = 0 then lookupKey k m
      else some ((lookupKey k m).getD 0 + l.count k) := by
  induction l generalizing m with
  | nil => simp
  | cons x xs ih =>
    simp only [List.foldl_cons]
    rw [ih]
    by_cases hx : x = k
    · subst hx
      rw [List.count_cons_self]
      rw [lookupKey_bump, if_pos rfl]
      by_cases hc : xs.count x = 0
      · rw [if_pos hc, if_neg (by omega), hc]
      · rw [if_neg hc, if_neg (by omega), Option.getD_some]
        congr 1
        omega
    · rw [List.count_cons_of_ne (fun hc => hx hc.symm), lookupKey_bump,
        if_neg (show ¬ k = x from fun hc => hx hc.symm)]

theorem keysOf_bump (m : List (String × Nat)) (k : String) :
    keysOf (bump m k) = if k ∈ keysOf m then keysOf m else keysOf m ++ [k] := by
  induction m with
  | nil => simp [bump, keysOf]
  | cons e rest ih =>
    obtain ⟨k2, c⟩ := e
    rw [bump_cons]
    by_cases h : k2 = k
    · subst h
      rw [if_pos rfl]
      simp [keysOf]
    · rw [if_neg h]
      simp only [keysOf, List.map_cons, List.mem_cons] at ih ⊢
      rw [ih]
      by_cases hk : k ∈ List.map (fun e => e.1) rest
      · simp [hk, Ne.symm h]
      · simp [hk, Ne.symm h]

theorem keysOf_foldl_bump (l : List String) (m : List (String × Nat)) :
    keysOf (l.foldl bump m) = keysOf m ++ firstOcc (keysOf m) l := by
  induction l generalizing m with
  | nil => simp [firstOcc]
  | cons x xs ih =>
    simp only [List.foldl_cons, firstOcc]
    rw [ih, keysOf_bump]
    by_cases h : x ∈ keysOf m
    · simp [h]
    · simp [h]

theorem flatBadgeKeys_cons (p : Nat × HNode) (rest : List (Nat × HNode)) :
    flatBadgeKeys (p :: rest) =
      (if (extractBadges p.2).isEmpty then ["(none)"] else extractBadges p.2) ++
        flatBadgeKeys rest := by
  unfold flatBadgeKeys
  rw [List.flatMap_cons]

theorem badgeSummary_eq_flat (g : List (Nat × HNode)) :
    badgeSummary g = (flatBadgeKeys g).foldl bump [] := by
  suffices h : ∀ m : List (String × Nat),
      g.foldl (fun m p =>
        let bs := extractBadges p.2
        if bs.isEmpty then bump m "(none)" else bs.foldl bump m) m =
      (flatBadgeKeys g).foldl bump m from h []
  induction g with
  | nil => intro m; rfl
  | cons p rest ih =>
    intro m
    by_cases hb : (extractBadges p.2).isEmpty
    · rw [List.foldl_cons, flatBadgeKeys_cons, List.foldl_append, ← ih]
      congr 1
      show (if (extractBadges p.2).isEmpty then bump m "(none)"
            else (extractBadges p.2).foldl bump m) =
          List.foldl bump m
            (if (extractBadges p.2).isEmpty then ["(none)"] else extractBadges p.2)
      rw [if_pos hb, if_pos hb]
      rfl
    · rw [List.foldl_cons, flatBadgeKeys_cons, List.foldl_append, ← ih]
      congr 1
      show (if (extractBadges p.2).isEmpty then bump m "(none)"
            else (extractBadges p.2).foldl bump m) =
          List.foldl bump m
            (if (extractBadges p.2).isEmpty then ["(none)"] else extractBadges p.2)
      rw [if_neg hb, if_neg hb]

theorem keysOf_badgeSummary (g : List (Nat × HNode)) :
    keysOf (badgeSummary g) = firstOcc [] (flatBadgeKeys g) := by
  rw [badgeSummary_eq_flat, keysOf_foldl_bump]
  rfl

theorem keysOf_badgeSummary_nodup (g : List (Nat × HNode)) :
    (keysOf (badgeSummary g)).Nodup := by
  rw [keysOf_badgeSummary]
  exact nodup_firstOcc _ _

theorem count_badgeSummary (g : List (Nat × HNode)) (b : String) (c : Nat)
    (h : (b, c) ∈ badgeSummary g) : c = (flatBadgeKeys g).count b := by
  have hl := lookupKey_of_mem_of_nodup _ _ _ (keysOf_badgeSummary_nodup g) h
  rw [badgeSummary_eq_flat, lookupKey_foldl_bump] at hl
  by_cases hc : (flatBadgeKeys g).count b = 0
  · rw [if_pos hc] at hl
    exact absurd hl (by simp [lookupKey])
  · rw [if_neg hc] at hl
    injection hl with hl
    rw [← hl]
    simp [lookupKey]

theorem keysOf_filter_sentinel (m : List (String × Nat)) :
    keysOf (m.filter (fun bc => bc.1 ≠ "(none)")) =
      (keysOf m).filter (fun b => b ≠ "(none)") := by
  induction m with
  | nil => rfl
  | cons e rest ih =>
    by_cases h : e.1 = "(none)"
    · rw [List.filter_cons_of_neg (by simp [h])]
      show _ = (e.1 :: keysOf rest).filter (fun b => b ≠ "(none)")
      rw [List.filter_cons_of_neg (by simp [h]), ih]
    · rw [List.filter_cons_of_pos (by simp [h])]
      show e.1 :: keysOf (rest.filter _) = (e.1 :: keysOf rest).filter (fun b => b ≠ "(none)")
      rw [List.filter_cons_of_pos (by simp [h]), ih]

theorem listStarts_append_self (pre rest : List Char) :
    listStarts pre (pre ++ rest) = true := by
  induction pre with
  | nil => rfl
  | cons c cs ih => simp [listStarts, ih]

theorem isBadgeVariation_repeated (x : String) :
    isBadgeVariation (.comment (" REPEATED: " ++ x)) = false := by
  show listStarts " Badge variations: ".data (" REPEATED: " ++ x).data = false
  rw [String.data_append]
  rfl

theorem isBadgeVariation_badge (x : String) :
    isBadgeVariation (.comment (" Badge variations: " ++ x)) = true := by
  show listStarts " Badge variations: ".data (" Badge variations: " ++ x).data = true
  rw [String.data_append]
  exact listStarts_append_self _ _

theorem isEmpty_congr {α : Type} {β : Type} (l1 : List α) (l2 : List β)
    (h : l1 = [] ↔ l2 = []) : l1.isEmpty = l2.isEmpty := by
  cases l1 with
  | nil =>
    rw [h.mp rfl]
    rfl
  | cons x xs =>
    cases l2 with
    | nil => exact absurd (h.mpr rfl) (by simp)
    | cons y ys => rfl

theorem str_beq_empty_false (s : String) (h : s.data ≠ []) : (s == "") = false := by
  rw [beq_eq_false_iff_ne]
  intro hc
  rw [hc] at h
  exact h rfl

theorem badgeSummaryStr_empty_iff (g : List (Nat × HNode)) :
    (badgeSummaryStr g == "") = (badgePairs g).isEmpty := by
  unfold badgeSummaryStr
  cases h : badgePairs g with
  | nil => rfl
  | cons bc rest =>
    rw [show ((bc :: rest).isEmpty) = false from rfl]
    apply str_beq_empty_false
    cases rest with
    | nil =>
      show ("\"" ++ bc.1 ++ "\" (" ++ toString bc.2 ++ "x)").data ≠ []
      simp [String.data_append]
    | cons bc2 rest2 =>
      show (("\"" ++ bc.1 ++ "\" (" ++ toString bc.2 ++ "x)") ++ ", " ++ _).data ≠ []
      simp [String.data_append]

theorem markerNodes_badge_comment (g : List (Nat × HNode)) (hd : Nat × HNode)
    (tl : List (Nat × HNode)) (hgl : g = hd :: tl) :
    (markerNodes g).any isBadgeVariation = !(badgePairs g).isEmpty := by
  obtain ⟨i, e⟩ := hd
  subst hgl
  by_cases hb : (badgeSummaryStr ((i, e) :: tl) == "") = true
  · have hmk : markerNodes ((i, e) :: tl) =
        [.text "\n",
         .comment (" REPEATED: " ++
           (toString ((i, e) :: tl).length ++ "x " ++ descriptorOf e ++ " ")),
         .text "\n"] := by
      unfold markerNodes
      rw [if_pos hb]
      rfl
    have h1 : isBadgeVariation (HNode.text "\n") = false := rfl
    have h2 := isBadgeVariation_repeated
      (toString ((i, e) :: tl).length ++ "x " ++ descriptorOf e ++ " ")
    rw [hmk]
    simp only [List.any_cons, List.any_nil, h1, h2, Bool.or_false, Bool.false_or]
    rw [← badgeSummaryStr_empty_iff, hb]
    rfl
  · have hmk : markerNodes ((i, e) :: tl) =
        [.text "\n",
         .comment (" REPEATED: " ++
           (toString ((i, e) :: tl).length ++ "x " ++ descriptorOf e ++ " ")),
         .text "\n",
         .comment (" Badge variations: " ++ (badgeSummaryStr ((i, e) :: tl) ++ " ")),
         .text "\n"] := by
      unfold markerNodes
      rw [if_neg hb]
      rfl
    have hb2 : (badgeSummaryStr ((i, e) :: tl) == "") = false := by
      cases hx : (badgeSummaryStr ((i, e) :: tl) == "") with
      | false => rfl
      | true => exact absurd hx hb
    have h1 : isBadgeVariation (HNode.text "\n") = false := rfl
    have h2 := isBadgeVariation_repeated
      (toString ((i, e) :: tl).length ++ "x " ++ descriptorOf e ++ " ")
    have h3 := isBadgeVariation_badge (badgeSummaryStr ((i, e) :: tl) ++ " ")
    rw [hmk]
    simp only [List.any_cons, List.any_nil, h1, h2, h3, Bool.or_false, Bool.false_or,
      Bool.or_true, Bool.true_or]
    rw [← badgeSummaryStr_empty_iff, hb2]
    rfl

/-- C3 counterexample: for the qualifying partition of three identical buttons
all carrying the one badge `New`, exactly ONE distinct non-empty badge string
occurs across the partition, yet the engine emits the badge table (both in the
marker nodes and in the final document) — contradicting the claim that the
table appears only when at least 2 distinct non-empty badge strings occur. -/
theorem badge_table_counterexample :
    structGroups csC3 = [("button[]()", gC3)] ∧
    ((firstOcc [] (flatBadgeKeys gC3)).filter (fun b => b ≠ "(none)")).length = 1 ∧
    (markerNodes gC3).any isBadgeVariation = true ∧
    deduplicateRepeatedStructures 3 exC3 =
      .elem "div" []
        [.text "\n", .comment " REPEATED: 3x button ", .text "\n",
         .comment " Badge variations: \"New\" (3x) ", .text "\n", buttonNode "New"] :=
  ⟨rfl, by decide, by decide, rfl⟩

/-- C3 (amended): for every qualifying structural partition the marker carries
the badge table iff at least ONE distinct non-sentinel badge string occurs
across the partition; the table lists the non-sentinel badge strings ordered
by first occurrence, each with the number of badge occurrences over the
members. -/
theorem badge_table_characterization :
    ∀ (T : Nat) (cs : List HNode) (s : String) (g : List (Nat × HNode)),
      (s, g) ∈ structGroups cs → T ≤ g.length →
      ((markerNodes g).any isBadgeVariation = !(badgePairs g).isEmpty) ∧
      (keysOf (badgePairs g) =
        (firstOcc [] (flatBadgeKeys g)).filter (fun b => b ≠ "(none)")) ∧
      (∀ bc ∈ badgePairs g, bc.2 = (flatBadgeKeys g).count bc.1) ∧
      ((badgePairs g).isEmpty =
        ((flatBadgeKeys g).filter (fun b => b ≠ "(none)")).isEmpty) := by
  intro T cs s g hg hT
  obtain ⟨-, hne⟩ := (mem_structGroups _ _ _).mp hg
  obtain ⟨hd, tl, hgl⟩ := List.exists_cons_of_ne_nil hne
  have hkeys : keysOf (badgePairs g) =
      (firstOcc [] (flatBadgeKeys g)).filter (fun b => b ≠ "(none)") := by
    unfold badgePairs
    rw [keysOf_filter_sentinel, keysOf_badgeSummary]
  refine ⟨markerNodes_badge_comment g hd tl hgl, hkeys, ?_, ?_⟩
  · intro bc hbc
    obtain ⟨b, c⟩ := bc
    exact count_badgeSummary g b c (List.mem_filter.mp hbc).1
  · have hiff : badgePairs g = [] ↔
        (flatBadgeKeys g).filter (fun b => b ≠ "(none)") = [] := by
      constructor
      · intro h
        have hk : (firstOcc [] (flatBadgeKeys g)).filter (fun b => b ≠ "(none)") = [] := by
          rw [← hkeys, h]
          rfl
        rw [List.filter_eq_nil_iff] at hk ⊢
        intro b hb
        exact hk b ((mem_firstOcc [] (flatBadgeKeys g) b).mpr ⟨hb, by simp⟩)
      · intro h
        have hk : keysOf (badgePairs g) = [] := by
          rw [hkeys, List.filter_eq_nil_iff]
          rw [List.filter_eq_nil_iff] at h
          intro b hb
          exact h b ((mem_firstOcc [] (flatBadgeKeys g) b).mp hb).1
        unfold keysOf at hk
        exact List.map_eq_nil_iff.mp hk
    exact isEmpty_congr _ _ hiff

/-- Witness for `badge_table_characterization` at the three-button container
`csC3`. -/
theorem badge_table_characterization_witness :
    (markerNodes gC3).any isBadgeVariation = !(badgePairs gC3).isEmpty :=
  (badge_table_characterization 3 csC3 "button[]()" gC3
    (by rw [show structGroups csC3 = [("button[]()", gC3)] from rfl]
        exact List.mem_singleton.mpr rfl)
    (by decide)).1

/-! ## Claim C4: the traversal over the snapshot -/

theorem hnode_ind {P : HNode → Prop}
    (htext : ∀ s, P (.text s)) (hcomment : ∀ s, P (.comment s))
    (helem : ∀ t a cs, (∀ c ∈ cs, P c) → P (.elem t a cs)) : ∀ n, P n := by
  have main : ∀ (k : Nat) (n : HNode), sizeOf n ≤ k → P n := by
    intro k
    induction k with
    | zero =>
      intro n hn
      exfalso
      cases n <;> simp at hn
    | succ k ih =>
      intro n hn
      cases n with
      | text s => exact htext s
      | comment s => exact hcomment s
      | elem t a cs =>
        refine helem t a cs (fun c hc => ?_)
        apply ih
        have h2 := List.sizeOf_lt_of_mem hc
        have h3 : sizeOf cs < sizeOf (HNode.elem t a cs) := by
          simp
        omega
  exact fun n => main (sizeOf n) n (Nat.le_refl _)

theorem mem_visitChildren_shape (cs : List HNode) (i : Nat) (p : List Nat)
    (h : p ∈ visitChildren i cs) : ∃ j q, p = j :: q ∧ i ≤ j := by
  induction cs generalizing i with
  | nil => simp [visitChildren] at h
  | cons c rest ih =>
    rw [visitChildren] at h
    rcases List.mem_append.mp h with h | h
    · obtain ⟨q, hq, hpq⟩ := List.mem_map.mp h
      exact ⟨i, q, hpq.symm, Nat.le_refl _⟩
    · obtain ⟨j, q, hpq, hj⟩ := ih (i + 1) h
      exact ⟨j, q, hpq, by omega⟩

theorem nodup_visitChildren (cs : List HNode) (i : Nat)
    (hcs : ∀ c ∈ cs, (visitOrder c).Nodup) : (visitChildren i cs).Nodup := by
  induction cs generalizing i with
  | nil => simp [visitChildren]
  | cons c rest ih =>
    rw [visitChildren]
    refine List.Nodup.append ?_ (ih (i + 1) (fun c2 hc2 => hcs c2 (List.mem_cons_of_mem _ hc2))) ?_
    · exact (hcs c (List.mem_cons_self _ _)).map
        (fun a b hab => by injection hab)
    · intro p hp1 hp2
      obtain ⟨q, hq, hpq⟩ := List.mem_map.mp hp1
      obtain ⟨j, q2, hpq2, hj⟩ := mem_visitChildren_shape rest (i + 1) p hp2
      rw [← hpq] at hpq2
      injection hpq2 with hji
      omega

theorem visitOrder_nodup : ∀ n : HNode, (visitOrder n).Nodup := by
  refine hnode_ind (fun s => by simp [visitOrder]) (fun s => by simp [visitOrder]) ?_
  intro t a cs ih
  rw [visitOrder]
  refine List.nodup_cons.mpr ⟨?_, nodup_visitChildren cs 0 ih⟩
  intro hmem
  obtain ⟨j, q, hpq, -⟩ := mem_visitChildren_shape cs 0 [] hmem
  exact absurd hpq (by simp)

theorem sub_pair_visitChildren (cs : List HNode) (i0 : Nat) (p : List Nat)
    (i : Nat) (rest : List Nat) (j : Nat)
    (IH : ∀ c ∈ cs, ∀ (p2 : List Nat) (i2 : Nat) (rest2 : List Nat),
      (p2 ++ i2 :: rest2) ∈ visitOrder c →
      [p2, p2 ++ i2 :: rest2].Sublist (visitOrder c))
    (h : (j :: (p ++ i :: rest)) ∈ visitChildren i0 cs) :
    [j :: p, j :: (p ++ i :: rest)].Sublist (visitChildren i0 cs) := by
  induction cs generalizing i0 with
  | nil => simp [visitChildren] at h
  | cons c cs2 ih =>
    rw [visitChildren] at h ⊢
    rcases List.mem_append.mp h with h | h
    · obtain ⟨q, hq, hpq⟩ := List.mem_map.mp h
      injection hpq with h1 h2
      subst h1
      rw [h2] at hq
      have hs := IH c (List.mem_cons_self _ _) p i rest hq
      have hs2 := hs.map (fun z => i0 :: z)
      refine List.Sublist.trans ?_ (List.sublist_append_left _ _)
      exact hs2
    · have hs := ih (i0 + 1) (fun c2 hc2 => IH c2 (List.mem_cons_of_mem _ hc2)) h
      exact List.Sublist.trans hs (List.sublist_append_right _ _)

theorem ancestor_before_descendant :
    ∀ (n : HNode) (p : List Nat) (i : Nat) (rest : List Nat),
      (p ++ i :: rest) ∈ visitOrder n →
      [p, p ++ i :: rest].Sublist (visitOrder n) := by
  refine hnode_ind ?_ ?_ ?_
  · intro s p i rest h
    simp [visitOrder] at h
  · intro s p i rest h
    simp [visitOrder] at h
  · intro t a cs IH p i rest h
    rw [visitOrder] at h ⊢
    cases p with
    | nil =>
      have hq : (i :: rest) ∈ visitChildren 0 cs := by
        rcases List.mem_cons.mp h with h | h
        · exact absurd h (by simp)
        · exact h
      exact List.Sublist.cons₂ _ (List.singleton_sublist.mpr hq)
    | cons j p2 =>
      have hq : (j :: (p2 ++ i :: rest)) ∈ visitChildren 0 cs := by
        rcases List.mem_cons.mp h with h | h
        · exact absurd h (by simp)
        · exact h
      have hs := sub_pair_visitChildren cs 0 p2 i rest j IH hq
      exact hs.cons _

/-- C4 counterexample: on the container of three identical empty divs, the
children at paths `[1]` and `[2]` are removed while the traversal visits the
root (snapshot position 0), yet `[1]` is itself in the snapshot and is visited
afterwards (snapshot position 2) — the removed node is visited again,
contradicting the claim that already-removed nodes are never visited. -/
theorem removed_node_visited_again :
    [1] ∈ removedPathsAt 3 exC4 [] ∧
    visitOrder exC4 = [[], [0], [1], [2]] ∧
    (visitOrder exC4).indexOf [] < (visitOrder exC4).indexOf [1] := by
  refine ⟨by decide, by decide, by decide⟩

/-- C4 (amended): the traversal iterates a snapshot of all elements taken
before any mutation, in document order; every container is visited exactly
once (the visit sequence has no duplicates, so removals never re-trigger an
evaluation), and every node below a container — including the nodes that
container's visit removes — occurs in the visit sequence strictly after its
ancestor; such visits of detached nodes do not affect the retained document. -/
theorem traversal_snapshot_order :
    ∀ (n : HNode), (visitOrder n).Nodup ∧
      ∀ (p : List Nat) (i : Nat) (rest : List Nat),
        (p ++ i :: rest) ∈ visitOrder n →
        [p, p ++ i :: rest].Sublist (visitOrder n) :=
  fun n => ⟨visitOrder_nodup n,
    fun p i rest h => ancestor_before_descendant n p i rest h⟩

/-- Witness for `traversal_snapshot_order`: the removed child `[1]` of `exC4`
is visited strictly after its remover `[]`. -/
theorem traversal_snapshot_order_witness :
    [([] : List Nat), [1]].Sublist (visitOrder exC4) :=
  (traversal_snapshot_order exC4).2 [] 1 [] (by decide)

/-! ## Claim C5: behaviour of a second pass -/

theorem filter_pair (p q : α → Bool) (l : List α) :
    (l.filter p).filter q = l.filter (fun a => p a && q a) := by
  induction l with
  | nil => rfl
  | cons x xs ih =>
    by_cases hp : p x
    · rw [List.filter_cons_of_pos hp]
      by_cases hq : q x
      · rw [List.filter_cons_of_pos hq, List.filter_cons_of_pos (by rw [hp, hq]; rfl), ih]
      · rw [List.filter_cons_of_neg hq,
          List.filter_cons_of_neg (by simp only [hp]; simpa using hq), ih]
    · rw [List.filter_cons_of_neg hp,
        List.filter_cons_of_neg (by simp only [Bool.and_eq_true]; intro hc; exact hp hc.1), ih]

theorem filter_ext (p q : α → Bool) (l : List α) (h : ∀ a ∈ l, p a = q a) :
    l.filter p = l.filter q := by
  induction l with
  | nil => rfl
  | cons x xs ih =>
    have hx := h x (List.mem_cons_self _ _)
    have ihx := ih (fun a ha => h a (List.mem_cons_of_mem _ ha))
    by_cases hp : p x
    · rw [List.filter_cons_of_pos hp, List.filter_cons_of_pos (by rw [← hx]; exact hp), ihx]
    · rw [List.filter_cons_of_neg hp, List.filter_cons_of_neg (by rw [← hx]; exact hp), ihx]

theorem map_snd_filter_snd (pr : HNode → Bool) (L : List (Nat × HNode)) :
    (L.filter (fun p => pr p.2)).map Prod.snd = (L.map Prod.snd).filter pr := by
  induction L with
  | nil => rfl
  | cons x xs ih =>
    by_cases hx : pr x.2
    · simp [List.filter_cons, hx, ih]
    · simp [List.filter_cons, hx, ih]

theorem flatMap_nil_of_all {f : α → List β} {l : List α} (h : ∀ a ∈ l, f a = []) :
    l.flatMap f = [] := by
  induction l with
  | nil => rfl
  | cons x xs ih =>
    rw [List.flatMap_cons, h x (List.mem_cons_self _ _),
      ih (fun a ha => h a (List.mem_cons_of_mem _ ha))]
    rfl

theorem snd_mem_idxFrom (l : List α) (i : Nat) (p : Nat × α)
    (h : p ∈ idxFrom i l) : p.2 ∈ l := by
  induction l generalizing i with
  | nil => simp [idxFrom] at h
  | cons x xs ih =>
    rcases List.mem_cons.mp h with h | h
    · rw [h]
      exact List.mem_cons_self _ _
    · exact List.mem_cons_of_mem _ (ih (i + 1) h)

theorem dedupNode_not_elem (T : Nat) (n : HNode) (h : isElem n = false) :
    dedupNode T n = (n, 0) := by
  cases n with
  | text s => rfl
  | comment s => rfl
  | elem t a cs => simp [isElem] at h

theorem elemsIdx_nil_of_no_elems (cs : List HNode)
    (h : ∀ c ∈ cs, isElem c = false) : elemsIdx cs = [] := by
  unfold elemsIdx
  rw [List.filter_eq_nil_iff]
  intro p hp
  rw [h p.2 (snd_mem_idxFrom cs 0 p hp)]
  simp

theorem qualGroups_of_no_elems (T : Nat) (cs : List HNode)
    (h : ∀ c ∈ cs, isElem c = false) : qualGroups T cs = [] := by
  unfold qualGroups
  by_cases hT : (elemsIdx cs).length < T
  · rw [if_pos hT]
  · rw [if_neg hT]
    unfold structGroups
    rw [elemsIdx_nil_of_no_elems cs h]
    rfl

theorem dedupList_no_elems (T : Nat) (cs : List HNode)
    (h : ∀ c ∈ cs, isElem c = false) :
    dedupList T cs = cs.map (fun c => (c, 0)) := by
  induction cs with
  | nil => rfl
  | cons c rest ih =>
    rw [show dedupList T (c :: rest) = dedupNode T c :: dedupList T rest from rfl,
      dedupNode_not_elem T c (h c (List.mem_cons_self _ _)), List.map_cons,
      ih (fun c2 hc2 => h c2 (List.mem_cons_of_mem _ hc2))]

theorem dedupNode_leafOrText (T : Nat) (n : HNode) (h : leafOrText n = true) :
    dedupNode T n = (n, 0) := by
  cases n with
  | text s => rfl
  | comment s => rfl
  | elem t a cs =>
    have hall : ∀ c ∈ cs, isElem c = false := by
      intro c hc
      have := (List.all_eq_true.mp h) c hc
      cases hic : isElem c with
      | false => rfl
      | true => rw [hic] at this; exact absurd this (by simp)
    have hq := qualGroups_of_no_elems T cs hall
    rw [dedupNode_elem]
    unfold containerMarkers containerRemoved
    rw [hq]
    show (HNode.elem t a (assembleChildren [] []
        (idxFrom 0 ((dedupList T cs).map Prod.fst))), _) = _
    rw [assembleChildren_nil, idxFrom_map_snd, dedupList_no_elems T cs hall,
      List.map_map, List.map_map]
    simp only [Function.comp_def, List.length_nil, Nat.zero_add]
    rw [show (cs.map (fun c => ((c, 0) : HNode × Nat).1)) = cs from by simp,
      show ((cs.map (fun c => ((c, 0) : HNode × Nat).2))).sum = 0 from by simp]
    rfl

theorem markerNodes_not_elem (g : List (Nat × HNode)) :
    ∀ x ∈ markerNodes g, isElem x = false := by
  intro x hx
  cases g with
  | nil => simp [markerNodes] at hx
  | cons hd tl =>
    obtain ⟨i, e⟩ := hd
    unfold markerNodes at hx
    by_cases hb : (badgeSummaryStr ((i, e) :: tl) == "") = true
    · rw [if_pos hb] at hx
      rcases List.mem_append.mp hx with hx | hx
      · rcases List.mem_cons.mp hx with hx | hx
        · rw [hx]; rfl
        · rcases List.mem_cons.mp hx with hx | hx
          · rw [hx]; rfl
          · rcases List.mem_cons.mp hx with hx | hx
            · rw [hx]; rfl
            · simp at hx
      · simp at hx
    · rw [if_neg hb] at hx
      rcases List.mem_append.mp hx with hx | hx
      · rcases List.mem_cons.mp hx with hx | hx
        · rw [hx]; rfl
        · rcases List.mem_cons.mp hx with hx | hx
          · rw [hx]; rfl
          · rcases List.mem_cons.mp hx with hx | hx
            · rw [hx]; rfl
            · simp at hx
      · rcases List.mem_cons.mp hx with hx | hx
        · rw [hx]; rfl
        · rcases List.mem_cons.mp hx with hx | hx
          · rw [hx]; rfl
          · simp at hx

theorem containerMarkers_not_elem (T : Nat) (cs : List HNode) :
    ∀ mk ∈ containerMarkers T cs, ∀ x ∈ mk.2, isElem x = false := by
  intro mk hmk x hx
  obtain ⟨sg, hsg, e, tl, h2, hmkeq⟩ := (mem_containerMarkers T cs mk).mp hmk
  rw [hmkeq] at hx
  exact markerNodes_not_elem sg.2 x hx

theorem mem_assembleChildren (M : List (Nat × List HNode)) (R : List Nat)
    (pairs : List (Nat × HNode)) (x : HNode) (hx : x ∈ assembleChildren M R pairs) :
    (∃ mk ∈ M, x ∈ mk.2) ∨ ∃ pr ∈ pairs, x = pr.2 := by
  induction pairs with
  | nil => simp [assembleChildren] at hx
  | cons pr rest ih =>
    obtain ⟨i, c⟩ := pr
    unfold assembleChildren at hx
    rcases List.mem_append.mp hx with hx | hx
    · rcases List.mem_append.mp hx with hx | hx
      · obtain ⟨mk, hmk, hxm⟩ := List.mem_flatMap.mp hx
        exact Or.inl ⟨mk, (List.mem_filter.mp hmk).1, hxm⟩
      · by_cases hR : i ∈ R
        · rw [if_pos hR] at hx
          simp at hx
        · rw [if_neg hR] at hx
          rcases List.mem_cons.mp hx with hx | hx
          · exact Or.inr ⟨(i, c), List.mem_cons_self _ _, hx⟩
          · simp at hx
    · rcases ih hx with h | ⟨pr2, hpr2, hxeq⟩
      · exact Or.inl h
      · exact Or.inr ⟨pr2, List.mem_cons_of_mem _ hpr2, hxeq⟩

theorem filter_isElem_assemble (M : List (Nat × List HNode)) (R : List Nat)
    (pairs : List (Nat × HNode))
    (hM : ∀ mk ∈ M, ∀ x ∈ mk.2, isElem x = false) :
    (assembleChildren M R pairs).filter isElem =
      (pairs.filter (fun pr => isElem pr.2 && decide (pr.1 ∉ R))).map Prod.snd := by
  induction pairs with
  | nil => rfl
  | cons pr rest ih =>
    obtain ⟨i, c⟩ := pr
    unfold assembleChildren
    rw [List.filter_append, List.filter_append]
    have hmk : ((M.filter (fun m => m.1 == i)).flatMap (fun m => m.2)).filter isElem = [] := by
      rw [List.filter_eq_nil_iff]
      intro x hx
      obtain ⟨mk, hmk2, hxm⟩ := List.mem_flatMap.mp hx
      rw [hM mk (List.mem_filter.mp hmk2).1 x hxm]
      simp
    rw [hmk, List.nil_append, ih]
    by_cases hR : i ∈ R
    · rw [if_pos hR]
      rw [List.filter_cons_of_neg (by simp [hR])]
      rfl
    · rw [if_neg hR]
      by_cases hc : isElem c
      · rw [show ([c].filter isElem) = [c] from by rw [List.filter_cons_of_pos hc]; rfl,
          List.filter_cons_of_pos (by rw [hc]; simpa using hR), List.map_cons]
        rfl
      · rw [show ([c].filter isElem) = [] from by
            rw [List.filter_cons_of_neg hc]; rfl,
          List.filter_cons_of_neg (by simp only [Bool.and_eq_true]; intro h2; exact hc h2.1)]
        rfl

theorem filter_singleton_of_pairwise (K : (Nat × HNode) → String)
    (l : List (Nat × HNode)) (hpw : l.Pairwise (fun a b => K a ≠ K b))
    (p : Nat × HNode) (hp : p ∈ l) :
    l.filter (fun q => K q == K p) = [p] := by
  induction l with
  | nil => simp at hp
  | cons x xs ih =>
    obtain ⟨hx, hxs⟩ := List.pairwise_cons.mp hpw
    rcases List.mem_cons.mp hp with hp | hp
    · subst hp
      rw [List.filter_cons_of_pos (by simp)]
      have hnil : xs.filter (fun q => K q == K p) = [] := by
        rw [List.filter_eq_nil_iff]
        intro q hq
        have := hx q hq
        simp only [beq_iff_eq]
        intro hc
        exact this hc.symm
      rw [hnil]
    · have hKx : K x ≠ K p := hx p hp
      rw [List.filter_cons_of_neg (by simpa using fun hc => hKx hc)]
      exact ih hxs hp

theorem groupRemoved_nil_of_distinct (g : List (Nat × HNode))
    (hpw : g.Pairwise (fun p q => p.1 < q.1))
    (hk : g.Pairwise (fun p q => badgeKey p.2 ≠ badgeKey q.2)) :
    groupRemoved g = [] := by
  unfold groupRemoved
  rw [show (g.filter (fun p => decide (p.1 ∉ keptIdx g))) = [] from ?_, List.map_nil]
  rw [List.filter_eq_nil_iff]
  intro p hp
  simp only [decide_eq_true_eq, Decidable.not_not]
  rw [keptIdx_iff_first g hpw p hp,
    filter_singleton_of_pairwise (fun q => badgeKey q.2) g hk p hp]
  rfl

theorem dedupNode_fst (T : Nat) (tag : String) (attrs : List (String × String))
    (cs : List HNode) :
    (dedupNode T (.elem tag attrs cs)).1 =
      .elem tag attrs
        (assembleChildren (containerMarkers T cs) (containerRemoved T cs)
          (idxFrom 0 ((dedupList T cs).map Prod.fst))) :=
  rfl

theorem dedupNode_snd (T : Nat) (tag : String) (attrs : List (String × String))
    (cs : List HNode) :
    (dedupNode T (.elem tag attrs cs)).2 =
      (containerRemoved T cs).length + ((dedupList T cs).map Prod.snd).sum :=
  rfl

theorem dedupList_flat (T : Nat) (cs : List HNode) (hflat : flatChildren cs = true) :
    dedupList T cs = cs.map (fun c => (c, 0)) := by
  induction cs with
  | nil => rfl
  | cons c rest ih =>
    have h1 : leafOrText c = true :=
      (List.all_eq_true.mp hflat) c (List.mem_cons_self _ _)
    have h2 : flatChildren rest = true := by
      rw [flatChildren, List.all_eq_true]
      intro x hx
      exact (List.all_eq_true.mp hflat) x (List.mem_cons_of_mem _ hx)
    rw [show dedupList T (c :: rest) = dedupNode T c :: dedupList T rest from rfl,
      dedupNode_leafOrText T c h1, ih h2, List.map_cons]

theorem pass2_containerRemoved_nil (T : Nat) (cs : List HNode) :
    containerRemoved T
      (assembleChildren (containerMarkers T cs) (containerRemoved T cs)
        (idxFrom 0 cs)) = [] := by
  rw [containerRemoved_eq]
  apply flatMap_nil_of_all
  intro sg hsg
  obtain ⟨hsg_mem, hsgT⟩ := mem_of_qualGroups hsg
  obtain ⟨s2, g2⟩ := sg
  have hsgT2 : T ≤ g2.length := hsgT
  have hg2snd : g2.map Prod.snd =
      ((assembleChildren (containerMarkers T cs) (containerRemoved T cs)
        (idxFrom 0 cs)).filter isElem).filter
        (fun e => getElementSignature e == s2) := by
    obtain ⟨hchar, -⟩ := (mem_structGroups _ s2 g2).mp hsg_mem
    rw [hchar]
    unfold elemsIdx
    rw [map_snd_filter_snd (fun e => getElementSignature e == s2) _,
      map_snd_filter_snd isElem _, idxFrom_map_snd]
  have hsurv := filter_isElem_assemble (containerMarkers T cs) (containerRemoved T cs)
    (idxFrom 0 cs) (containerMarkers_not_elem T cs)
  have hmain : g2.map Prod.snd =
      (((elemsIdx cs).filter (fun p => getElementSignature p.2 == s2)).filter
        (fun p => decide (p.1 ∉ containerRemoved T cs))).map Prod.snd := by
    rw [hg2snd, hsurv, ← map_snd_filter_snd]
    unfold elemsIdx
    rw [filter_pair, filter_pair, filter_pair]
    congr 1
    apply filter_ext
    intro a ha
    cases h1 : isElem a.2 <;>
      cases h2 : decide (a.1 ∉ containerRemoved T cs) <;>
        cases h3 : (getElementSignature a.2 == s2) <;> simp [h1, h2, h3]
  by_cases hq1 : T ≤ ((elemsIdx cs).filter
      (fun p => getElementSignature p.2 == s2)).length
  · have hg1ne : (elemsIdx cs).filter (fun p => getElementSignature p.2 == s2) ≠ [] := by
      intro hc
      rw [hc] at hmain
      obtain ⟨-, hne2⟩ := (mem_structGroups _ s2 g2).mp hsg_mem
      exact hne2 (List.map_eq_nil_iff.mp (by rw [hmain]; rfl))
    have hmem1 : (s2, (elemsIdx cs).filter (fun p => getElementSignature p.2 == s2)) ∈
        structGroups cs :=
      (mem_structGroups _ _ _).mpr ⟨rfl, hg1ne⟩
    have hpw1 := group_pairwise hmem1
    have hkept : ((elemsIdx cs).filter (fun p => getElementSignature p.2 == s2)).filter
        (fun p => decide (p.1 ∉ containerRemoved T cs)) =
        specKept ((elemsIdx cs).filter (fun p => getElementSignature p.2 == s2)) := by
      unfold specKept
      apply filter_ext
      intro p hp
      have hiff := removed_iff_not_specKept hmem1 hq1 hp
      by_cases hPp : p ∈ specKept ((elemsIdx cs).filter
          (fun p2 => getElementSignature p2.2 == s2))
      · have h2 : p.1 ∉ containerRemoved T cs := fun hr => (hiff.mp hr) hPp
        rw [decide_eq_true h2]
        have hPp2 : p ∈ ((elemsIdx cs).filter
            (fun p2 => getElementSignature p2.2 == s2)).filter
            (fun p2 => ((((elemsIdx cs).filter
              (fun p3 => getElementSignature p3.2 == s2)).find?
                (fun q => badgeKey q.2 == badgeKey p2.2)).map (fun q => q.1)) ==
              some p2.1) := hPp
        exact ((List.mem_filter.mp hPp2).2).symm
      · have h2 : ¬ p.1 ∉ containerRemoved T cs := fun hn => hn (hiff.mpr hPp)
        rw [decide_eq_false h2]
        cases h3 : ((((elemsIdx cs).filter
            (fun p2 => getElementSignature p2.2 == s2)).find?
              (fun q => badgeKey q.2 == badgeKey p.2)).map (fun q => q.1)) ==
            some p.1 with
        | false => rfl
        | true =>
          exfalso
          exact hPp (List.mem_filter.mpr ⟨hp, h3⟩)
    have hdistnodes : ((specKept ((elemsIdx cs).filter
        (fun p => getElementSignature p.2 == s2))).map Prod.snd).Pairwise
        (fun a b => badgeKey a ≠ badgeKey b) :=
      (List.pairwise_map).mpr (specKept_keys_pairwise _ hpw1)
    have hdist : g2.Pairwise (fun p q => badgeKey p.2 ≠ badgeKey q.2) := by
      have hmapped : (g2.map Prod.snd).Pairwise (fun a b => badgeKey a ≠ badgeKey b) := by
        rw [hmain, hkept]
        exact hdistnodes
      exact hmapped.of_map Prod.snd (fun a b h => h)
    cases g2 with
    | nil => rfl
    | cons a l =>
      exact groupRemoved_nil_of_distinct _ (group_pairwise hsg_mem) hdist
  · exfalso
    have hlen : g2.length = (((elemsIdx cs).filter
        (fun p => getElementSignature p.2 == s2)).filter
        (fun p => decide (p.1 ∉ containerRemoved T cs))).length := by
      have hml := congrArg List.length hmain
      rw [List.length_map, List.length_map] at hml
      exact hml
    have hle := List.length_filter_le (fun p => decide (p.1 ∉ containerRemoved T cs))
      ((elemsIdx cs).filter (fun p => getElementSignature p.2 == s2))
    omega

theorem pass2_flat_core (T : Nat) (tag : String) (attrs : List (String × String))
    (cs : List HNode) (hflat : flatChildren cs = true) :
    pass2Removals T (.elem tag attrs cs) = 0 := by
  have hflat_mem : ∀ c ∈ cs, leafOrText c = true := List.all_eq_true.mp hflat
  have hpairs : (dedupList T cs).map Prod.fst = cs := by
    rw [dedupList_flat T cs hflat, List.map_map,
      show (Prod.fst ∘ fun c : HNode => (c, 0)) = id from rfl, List.map_id]
  show (dedupNode T (dedupNode T (HNode.elem tag attrs cs)).1).2 = 0
  rw [dedupNode_fst, hpairs, dedupNode_snd, pass2_containerRemoved_nil T cs]
  have hsum : ((dedupList T
      (assembleChildren (containerMarkers T cs) (containerRemoved T cs)
        (idxFrom 0 cs))).map Prod.snd).sum = 0 := by
    apply List.sum_eq_zero
    intro x hx
    rw [dedupList_eq_map, List.map_map] at hx
    obtain ⟨c, hc, hxc⟩ := List.mem_map.mp hx
    rw [← hxc]
    show (dedupNode T c).2 = 0
    rcases mem_assembleChildren _ _ _ c hc with ⟨mk, hmk, hxm⟩ | ⟨pr, hpr, hxeq⟩
    · rw [dedupNode_not_elem T c (containerMarkers_not_elem T cs mk hmk c hxm)]
    · rw [hxeq, dedupNode_leafOrText T pr.2
        (hflat_mem pr.2 (snd_mem_idxFrom cs 0 pr hpr))]
  rw [hsum]
  rfl

/-- C5 counterexample: on the nested tree `exC5` (three rows of 3, 4 and 5
spans) the first pass collapses each row to a single span, making the three
rows signature-equal, and a second run of the engine on the output then
removes 2 further elements — `deduplicate` is not idempotent. -/
theorem second_pass_removes :
    pass2Removals 3 exC5 = 2 ∧ pass2Removals 3 exC5 ≠ 0 := by
  have h : pass2Removals 3 exC5 = 2 := by decide
  exact ⟨h, by rw [h]; decide⟩

/-- C5 (amended): on trees of height at most 2 — every child of the root is a
leaf element, a text node or a comment — a second run of the engine on its own
output performs zero removals; on deeper trees a second pass may remove
further elements, because first-pass removals inside a child can make
previously distinct sibling signatures coincide. -/
theorem second_pass_no_removals_flat :
    ∀ (T : Nat) (tag : String) (attrs : List (String × String)) (cs : List HNode),
      flatChildren cs = true → pass2Removals T (.elem tag attrs cs) = 0 :=
  fun T tag attrs cs hflat => pass2_flat_core T tag attrs cs hflat

/-- Witness for `second_pass_no_removals_flat` at a concrete flat container
(three buttons with distinct labels). -/
theorem second_pass_no_removals_flat_witness :
    pass2Removals 3 (.elem "div" [] csC10) = 0 :=
  second_pass_no_removals_flat 3 "div" [] csC10 (by decide)

end WebCompress
